import Mathlib

/-!
Shallow embedding of the CSV profiling engine of `src/lambda/processor.py`
(`process_csv_file`, `infer_schema`, `infer_column_type`, `compute_statistics`,
`detect_quality_issues`) together with the relevant behaviour of Python's
`csv.DictReader` and of the Python builtins `int()`, `float()`,
`datetime.strptime` that the engine calls.

Conventions of the embedding:
* raw input is modelled at the level of the records produced by the underlying
  CSV reader: a `List (List String)` (first record = header line, a blank line
  is the empty record `[]`);
* Python `None` (the `restval` padding of `DictReader`) and the `restkey` list
  of extra fields are modelled by the `PyVal` type;
* Python exceptions that the engine can raise or catch are modelled by the
  `PyErr` type and `Except`-valued functions;
* Python numbers reachable from `float()` are modelled by `PFloat`
  (an exact rational, `inf`, `-inf` or `nan`); binary64 rounding is idealised
  to exact rational arithmetic, which is the precision at which the
  specification states its numeric properties;
* character-level parsing is modelled for ASCII strings (Python additionally
  accepts some unicode digits/spaces, which no claim depends on).
-/

set_option autoImplicit false

deriving instance DecidableEq for Except

/-- Whitespace characters stripped by Python's `str.strip()` (ASCII part). -/
def isPyWs (c : Char) : Bool :=
  c = ' ' || c = '\t' || c = '\n' || c = '\r' || c = '\x0b' || c = '\x0c'

/-- Drop trailing characters satisfying `p`. -/
def dropEndWhile (p : Char → Bool) (l : List Char) : List Char :=
  l.foldr (fun c acc => if acc.isEmpty && p c then [] else c :: acc) []

/-- Model of Python `str.strip()` on a character list. -/
def pyStripL (l : List Char) : List Char :=
  dropEndWhile isPyWs (l.dropWhile isPyWs)

/-- Model of Python `str.strip()`. -/
def pyStrip (s : String) : String := ⟨pyStripL s.data⟩

/-- Continuation of a digit group: digits, with single underscores allowed
between digits (Python's numeric-literal underscore rule). -/
def groupRest : List Char → Bool
  | [] => true
  | ['_'] => false
  | '_' :: d :: rest => d.isDigit && groupRest rest
  | c :: rest => c.isDigit && groupRest rest

/-- A valid Python digit group: nonempty, starts with a digit, single
underscores only between digits. -/
def digitGroupOk : List Char → Bool
  | [] => false
  | c :: rest => c.isDigit && groupRest rest

/-- Numeric value of a digit group, ignoring underscores. -/
def digitsVal (l : List Char) : ℕ :=
  l.foldl (fun n c => if c = '_' then n else n * 10 + (c.toNat - 48)) 0

/-- Model of Python `int(s)` on a character list: strip whitespace, optional
sign, then a digit group (base 10, no decimal point, no exponent). -/
def pyIntValL (l : List Char) : Option ℤ :=
  match pyStripL l with
  | '+' :: rest => if digitGroupOk rest then some (digitsVal rest : ℤ) else none
  | '-' :: rest => if digitGroupOk rest then some (-(digitsVal rest : ℤ)) else none
  | t => if digitGroupOk t then some (digitsVal t : ℤ) else none

/-- Model of Python `int(s)` for strings. -/
def pyIntVal (s : String) : Option ℤ := pyIntValL s.data

/-- Model of Python `int(s)` succeeding (no `ValueError`). -/
def pyIntOk (s : String) : Bool := (pyIntVal s).isSome

/-- Python float values: an exact rational (idealising binary64), an
infinity, or `nan`. -/
inductive PFloat where
  | prat (q : ℚ)
  | pinf
  | pninf
  | pnan
deriving DecidableEq

/-- Split a character list at every occurrence of `sep`; the result is
always nonempty. -/
def splitOnCharL (sep : Char) : List Char → List (List Char)
  | [] => [[]]
  | c :: rest =>
    match splitOnCharL sep rest with
    | [] => [[c]]
    | h :: t => if c = sep then [] :: h :: t else (c :: h) :: t

/-- Number of actual digits in a digit group (underscores not counted). -/
def digitCount (l : List Char) : ℕ :=
  (l.filter (fun c => !(c = '_'))).length

/-- Mantissa of a Python float literal: `G`, `G.`, `G.G` or `.G` where each
`G` is a digit group; returns its exact rational value. -/
def floatMantissa (l : List Char) : Option ℚ :=
  match splitOnCharL '.' l with
  | [ip] => if digitGroupOk ip then some (digitsVal ip : ℚ) else none
  | [ip, fp] =>
    if (ip.isEmpty || digitGroupOk ip) && (fp.isEmpty || digitGroupOk fp)
        && !(ip.isEmpty && fp.isEmpty) then
      some ((digitsVal ip : ℚ) + (digitsVal fp : ℚ) / (10 : ℚ) ^ (digitCount fp))
    else none
  | _ => none

/-- Exponent part of a Python float literal (after `e`/`E`). -/
def floatExponent (l : List Char) : Option ℤ :=
  match l with
  | '+' :: rest => if digitGroupOk rest then some (digitsVal rest : ℤ) else none
  | '-' :: rest => if digitGroupOk rest then some (-(digitsVal rest : ℤ)) else none
  | t => if digitGroupOk t then some (digitsVal t : ℤ) else none

/-- Unsigned body of a Python float: `inf`, `infinity`, `nan` (case
insensitive) or a decimal mantissa with optional exponent. -/
def floatBody (l : List Char) : Option PFloat :=
  let low := l.map Char.toLower
  if low = ['i', 'n', 'f'] || low = ['i', 'n', 'f', 'i', 'n', 'i', 't', 'y'] then
    some PFloat.pinf
  else if low = ['n', 'a', 'n'] then
    some PFloat.pnan
  else
    match splitOnCharL 'e' low with
    | [m] => (floatMantissa m).map PFloat.prat
    | [m, ex] =>
      match floatMantissa m, floatExponent ex with
      | some q, some e => some (PFloat.prat (q * (10 : ℚ) ^ e))
      | _, _ => none
    | _ => none

/-- Negation on Python float values (`-nan` is `nan`). -/
def pNeg : PFloat → PFloat
  | PFloat.prat q => PFloat.prat (-q)
  | PFloat.pinf => PFloat.pninf
  | PFloat.pninf => PFloat.pinf
  | PFloat.pnan => PFloat.pnan

/-- Model of Python `float(s)` on a character list: strip whitespace,
optional sign, then a float body. -/
def pyFloatValL (l : List Char) : Option PFloat :=
  match pyStripL l with
  | '+' :: rest => floatBody rest
  | '-' :: rest => (floatBody rest).map pNeg
  | t => floatBody t

/-- Model of Python `float(s)` for strings. -/
def pyFloatVal (s : String) : Option PFloat := pyFloatValL s.data

/-- Model of Python `float(s)` succeeding (no `ValueError`). -/
def pyFloatOk (s : String) : Bool := (pyFloatVal s).isSome

/-- The four `strptime` formats tried by `infer_column_type`, in source
order. -/
inductive DateFmt where
  | ymdDash
  | mdySlash
  | dmySlash
  | ymdSlash
deriving DecidableEq

/-- Exactly four digits (the `%Y` directive of `strptime`). -/
def year4Ok (l : List Char) : Bool :=
  l.length = 4 && l.all Char.isDigit

/-- One or two digits (the `%m` / `%d` directives of `strptime`). -/
def digits12Ok (l : List Char) : Bool :=
  (l.length = 1 || l.length = 2) && l.all Char.isDigit

/-- Leap-year test of the proleptic Gregorian calendar used by
`datetime`. -/
def isLeap (y : ℕ) : Bool :=
  y % 4 = 0 && (!(y % 100 = 0) || y % 400 = 0)

/-- Number of days of month `m` in year `y` (as validated by the
`datetime` constructor). -/
def daysInMonth (y m : ℕ) : ℕ :=
  if m = 2 then (if isLeap y then 29 else 28)
  else if m = 4 || m = 6 || m = 9 || m = 11 then 30
  else 31

/-- Validity of a year/month/day triple per `datetime(y, m, d)`. -/
def validYMD (y m d : ℕ) : Bool :=
  1 ≤ y && y ≤ 9999 && 1 ≤ m && m ≤ 12 && 1 ≤ d && d ≤ daysInMonth y m

/-- Plain digit-string value (no underscores are admitted by `strptime`). -/
def plainDigitsVal (l : List Char) : ℕ :=
  l.foldl (fun n c => n * 10 + (c.toNat - 48)) 0

/-- Model of `datetime.strptime(s, fmt)` succeeding, for the four formats
used by the source: the string must be exactly three digit fields joined by
the format's separator, with `%Y` exactly four digits, `%m`/`%d` one or two
digits, and the resulting triple a valid calendar date. -/
def strptimeOkL (fmt : DateFmt) (l : List Char) : Bool :=
  let sep : Char := match fmt with | DateFmt.ymdDash => '-' | _ => '/'
  match splitOnCharL sep l with
  | [a, b, c] =>
    match fmt with
    | DateFmt.ymdDash =>
      year4Ok a && digits12Ok b && digits12Ok c
        && validYMD (plainDigitsVal a) (plainDigitsVal b) (plainDigitsVal c)
    | DateFmt.ymdSlash =>
      year4Ok a && digits12Ok b && digits12Ok c
        && validYMD (plainDigitsVal a) (plainDigitsVal b) (plainDigitsVal c)
    | DateFmt.mdySlash =>
      digits12Ok a && digits12Ok b && year4Ok c
        && validYMD (plainDigitsVal c) (plainDigitsVal a) (plainDigitsVal b)
    | DateFmt.dmySlash =>
      digits12Ok a && digits12Ok b && year4Ok c
        && validYMD (plainDigitsVal c) (plainDigitsVal b) (plainDigitsVal a)
  | _ => false

/-- Model of `datetime.strptime(s, fmt)` succeeding, for strings. -/
def strptimeOk (fmt : DateFmt) (s : String) : Bool := strptimeOkL fmt s.data

/-- Python `<` on float values: `nan` compares false with everything. -/
def pyLtB : PFloat → PFloat → Bool
  | PFloat.pnan, _ => false
  | _, PFloat.pnan => false
  | PFloat.prat a, PFloat.prat b => a < b
  | PFloat.prat _, PFloat.pinf => true
  | PFloat.prat _, PFloat.pninf => false
  | PFloat.pinf, _ => false
  | PFloat.pninf, PFloat.pninf => false
  | PFloat.pninf, _ => true

/-- Python `<=` on float values: `nan` compares false with everything. -/
def pyLeB : PFloat → PFloat → Bool
  | PFloat.pnan, _ => false
  | _, PFloat.pnan => false
  | PFloat.prat a, PFloat.prat b => a ≤ b
  | PFloat.prat _, PFloat.pinf => true
  | PFloat.prat _, PFloat.pninf => false
  | PFloat.pinf, PFloat.pinf => true
  | PFloat.pinf, _ => false
  | PFloat.pninf, _ => true

/-- Python `+` on float values. -/
def pAdd : PFloat → PFloat → PFloat
  | PFloat.pnan, _ => PFloat.pnan
  | _, PFloat.pnan => PFloat.pnan
  | PFloat.pinf, PFloat.pninf => PFloat.pnan
  | PFloat.pninf, PFloat.pinf => PFloat.pnan
  | PFloat.pinf, _ => PFloat.pinf
  | _, PFloat.pinf => PFloat.pinf
  | PFloat.pninf, _ => PFloat.pninf
  | _, PFloat.pninf => PFloat.pninf
  | PFloat.prat a, PFloat.prat b => PFloat.prat (a + b)

/-- Python division of a float value by a positive integer count. -/
def pDivNat (x : PFloat) (n : ℕ) : PFloat :=
  match x with
  | PFloat.prat a => PFloat.prat (a / (n : ℚ))
  | PFloat.pinf => PFloat.pinf
  | PFloat.pninf => PFloat.pninf
  | PFloat.pnan => PFloat.pnan

/-- Python `min(v :: vs)`: keep the current result unless a later item
compares `<` against it. -/
def pyMin (v : PFloat) (vs : List PFloat) : PFloat :=
  vs.foldl (fun m x => if pyLtB x m then x else m) v

/-- Python `max(v :: vs)`: keep the current result unless a later item
compares `>` against it. -/
def pyMax (v : PFloat) (vs : List PFloat) : PFloat :=
  vs.foldl (fun m x => if pyLtB m x then x else m) v

/-- Python `sum(vs)`: left fold of `+` starting from the integer `0`. -/
def pySum (vs : List PFloat) : PFloat :=
  vs.foldl pAdd (PFloat.prat 0)

/-- Values a `csv.DictReader` row can hold: an ordinary string field, the
`None` used as `restval` padding for missing trailing fields, or the list of
extra trailing fields stored under the `restkey`. -/
inductive PyVal where
  | vstr (s : String)
  | vnone
  | vlist (l : List String)
deriving DecidableEq

/-- Dictionary keys of a `DictReader` row: a field name, or `none` for the
`restkey` (Python's `None`). -/
abbrev PyKey := Option String

/-- A `DictReader` row: an insertion-ordered association list. -/
abbrev PyRow := List (PyKey × PyVal)

/-- Python dict lookup on an insertion-ordered association list: a later
binding of the same key overrides an earlier one. -/
def pyGet (r : PyRow) (k : PyKey) : Option PyVal :=
  r.foldl (fun acc p => if p.1 = k then some p.2 else acc) none

/-- Keys of a Python dict in first-insertion order. -/
def dedupFirst (seen : List PyKey) : List PyKey → List PyKey
  | [] => []
  | k :: rest =>
    if k ∈ seen then dedupFirst seen rest else k :: dedupFirst (k :: seen) rest

/-- Model of `list(row.keys())` for a `DictReader` row. -/
def pyKeys (r : PyRow) : List PyKey :=
  dedupFirst [] (r.map Prod.fst)

/-- Model of how `csv.DictReader` turns one raw record into a row dict:
`dict(zip(fieldnames, record))`, extra fields collected under the `restkey`
`None`, missing trailing fields filled with the `restval` `None`. -/
def dictRow (fieldnames record : List String) : PyRow :=
  ((fieldnames.zip record).map (fun p => (some p.1, PyVal.vstr p.2)))
    ++ (if fieldnames.length < record.length then
          [((none : PyKey), PyVal.vlist (record.drop fieldnames.length))]
        else [])
    ++ ((fieldnames.drop record.length).map (fun k => (some k, PyVal.vnone)))

/-- Model of `list(csv.DictReader(...))` at the record level: the first
record is the header, blank records (blank lines) are skipped, every other
record becomes a row dict. -/
def dictReadRows (records : List (List String)) : List PyRow :=
  match records with
  | [] => []
  | header :: rest => (rest.filter (fun r => !r.isEmpty)).map (dictRow header)

/-- Python exceptions relevant to the engine. -/
inductive PyErr where
  /-- The `ValueError("CSV file is empty or has no data rows")` of
  `process_csv_file`. -/
  | emptyInput
  /-- `KeyError` from indexing a dict with a missing key. -/
  | keyError
  /-- `AttributeError` from calling `.strip()` on a non-string. -/
  | attributeError
  /-- `TypeError` from calling `int()`/`float()` on a non-string. -/
  | typeError
deriving DecidableEq

/-- The `values = [row[col] for row in rows if row[col].strip()]` line of
`infer_schema`: for each row, `row[col]` (a `KeyError` if the key is absent),
then `.strip()` (an `AttributeError` unless the value is a string); the
original value is kept when its stripped form is non-empty. -/
def collectValues (col : PyKey) : List PyRow → Except PyErr (List String)
  | [] => Except.ok []
  | r :: rest =>
    match pyGet r col with
    | none => Except.error PyErr.keyError
    | some (PyVal.vstr s) =>
      match collectValues col rest with
      | Except.error e => Except.error e
      | Except.ok tl =>
        Except.ok (if pyStrip s = "" then tl else s :: tl)
    | some _ => Except.error PyErr.attributeError

/-- The format list `['%Y-%m-%d', '%m/%d/%Y', '%d/%m/%Y', '%Y/%m/%d']` of
`infer_column_type`, in source order. -/
def dateFormats : List DateFmt :=
  [DateFmt.ymdDash, DateFmt.mdySlash, DateFmt.dmySlash, DateFmt.ymdSlash]

/-- Model of `infer_column_type`: try `int` on every value, then `float` on
every value, then each date format on the first 10 values (`values[:10]`),
returning at the first success; fallback `'string'`. -/
def infer_column_type (values : List String) : String :=
  if values.all pyIntOk then "int"
  else if values.all pyFloatOk then "float"
  else
    match dateFormats.find? (fun f => (values.take 10).all (strptimeOk f)) with
    | some _ => "date"
    | none => "string"

/-- Per-column body of `infer_schema`: collect the non-empty values; an
empty collection gives `'string'`, otherwise the inferred type. -/
def colSchema (rows : List PyRow) (col : PyKey) : Except PyErr String :=
  match collectValues col rows with
  | Except.error e => Except.error e
  | Except.ok vs =>
    Except.ok (if vs.isEmpty then "string" else infer_column_type vs)

/-- Model of `infer_schema rows columns`: one entry per column, in column
order. -/
def inferSchema (rows : List PyRow) : List PyKey → Except PyErr (List (PyKey × String))
  | [] => Except.ok []
  | c :: cs =>
    match colSchema rows c with
    | Except.error e => Except.error e
    | Except.ok t =>
      match inferSchema rows cs with
      | Except.error e => Except.error e
      | Except.ok rest => Except.ok ((c, t) :: rest)

/-- The conversion attempted by `compute_statistics` on one cell:
`int(row[col])` for an `'int'` column, `float(row[col])` otherwise. -/
def parseByType (ty : String) (s : String) : Option PFloat :=
  if ty = "int" then (pyIntVal s).map (fun z => PFloat.prat (z : ℚ))
  else pyFloatVal s

/-- The inner loop of `compute_statistics` for one numeric column: for each
row, convert `row[col]`, a `KeyError` (absent key) or `ValueError` (failed
conversion) silently skips the row, while `int(None)`/`int(list)` is an
uncaught `TypeError`. -/
def parsedValuesE (col : PyKey) (ty : String) : List PyRow → Except PyErr (List PFloat)
  | [] => Except.ok []
  | r :: rest =>
    match pyGet r col with
    | none =>
      parsedValuesE col ty rest
    | some (PyVal.vstr s) =>
      match parsedValuesE col ty rest with
      | Except.error e => Except.error e
      | Except.ok tl =>
        Except.ok (match parseByType ty s with
                   | some v => v :: tl
                   | none => tl)
    | some _ => Except.error PyErr.typeError

/-- Statistics entry for one numeric column:
`{min, max, avg = sum/count, count}`. -/
structure ColStats where
  min : PFloat
  max : PFloat
  avg : PFloat
  count : ℕ
deriving DecidableEq

/-- Builds the `{'min': ..., 'max': ..., 'avg': ..., 'count': ...}` dict of
`compute_statistics` from a non-empty value list. -/
def mkColStats (v : PFloat) (vs : List PFloat) : ColStats :=
  { min := pyMin v vs
    max := pyMax v vs
    avg := pDivNat (pySum (v :: vs)) (v :: vs).length
    count := (v :: vs).length }

/-- Model of `compute_statistics rows schema`: for `'int'`/`'float'` columns
only, parse the values and, when at least one parses, emit an entry; other
columns are skipped. -/
def computeStatistics (rows : List PyRow) : List (PyKey × String) → Except PyErr (List (PyKey × ColStats))
  | [] => Except.ok []
  | (col, ty) :: rest =>
    if ty = "int" || ty = "float" then
      match parsedValuesE col ty rows with
      | Except.error e => Except.error e
      | Except.ok vs =>
        match computeStatistics rows rest with
        | Except.error e => Except.error e
        | Except.ok tail =>
          Except.ok (match vs with
                     | [] => tail
                     | v :: vs2 => (col, mkColStats v vs2) :: tail)
    else computeStatistics rows rest

/-- The `missing = sum(1 for row in rows if not row.get(col, '').strip())`
line of `detect_quality_issues`: `row.get(col, '')` defaults an absent key to
`''`; `.strip()` on a non-string is an `AttributeError`. -/
def missingCountE (col : PyKey) : List PyRow → Except PyErr ℕ
  | [] => Except.ok 0
  | r :: rest =>
    match (pyGet r col).getD (PyVal.vstr "") with
    | PyVal.vstr s =>
      match missingCountE col rest with
      | Except.error e => Except.error e
      | Except.ok n => Except.ok (if pyStrip s = "" then n + 1 else n)
    | _ => Except.error PyErr.attributeError

/-- The invalid-value loop of `detect_quality_issues` for one numeric
column: among rows whose stripped value is non-empty, count those whose
stripped value fails to convert to the column's type. -/
def invalidCountE (col : PyKey) (ty : String) : List PyRow → Except PyErr ℕ
  | [] => Except.ok 0
  | r :: rest =>
    match (pyGet r col).getD (PyVal.vstr "") with
    | PyVal.vstr s =>
      match invalidCountE col ty rest with
      | Except.error e => Except.error e
      | Except.ok n =>
        Except.ok (if pyStrip s = "" then n
                   else if (parseByType ty (pyStrip s)).isSome then n
                   else n + 1)
    | _ => Except.error PyErr.attributeError

/-- Round-half-to-even of a rational to an integer (the rounding mode of
Python's `round`). -/
def roundHalfEven (x : ℚ) : ℤ :=
  let f : ℤ := ⌊x⌋
  let r : ℚ := x - (f : ℚ)
  if r < 1/2 then f
  else if 1/2 < r then f + 1
  else if f % 2 = 0 then f else f + 1

/-- Model of Python `round(x, 2)` at rational precision. -/
def pyRound2 (x : ℚ) : ℚ :=
  ((roundHalfEven (x * 100) : ℚ)) / 100

/-- A `missing_values` entry: `{count, percentage}`. -/
structure MissEntry where
  count : ℕ
  percentage : ℚ
deriving DecidableEq

/-- An `invalid_values` entry: `{count, percentage, expected_type}`. -/
structure InvEntry where
  count : ℕ
  percentage : ℚ
  expected_type : String
deriving DecidableEq

/-- The `quality_issues` dict produced by `detect_quality_issues`. -/
structure QualityReport where
  total_rows : ℕ
  missing_values : List (PyKey × MissEntry)
  invalid_values : List (PyKey × InvEntry)
  has_issues : Bool
deriving DecidableEq

/-- Per-column loop of `detect_quality_issues`: for each schema entry, the
missing count (an entry and the flag when positive) and, for numeric columns
only, the invalid count (an entry and the flag when positive). -/
def dqCols (rows : List PyRow) (total : ℕ) : List (PyKey × String) → Except PyErr (List (PyKey × MissEntry) × List (PyKey × InvEntry) × Bool)
  | [] => Except.ok ([], [], false)
  | (col, ty) :: rest =>
    match missingCountE col rows with
    | Except.error e => Except.error e
    | Except.ok m =>
      match (if ty = "int" || ty = "float"
             then (invalidCountE col ty rows).map some
             else Except.ok none) with
      | Except.error e => Except.error e
      | Except.ok invOpt =>
        match dqCols rows total rest with
        | Except.error e => Except.error e
        | Except.ok (ml, il, fl) =>
          Except.ok
            ((if 0 < m then
                [(col, { count := m
                         percentage := pyRound2 ((m : ℚ) / (total : ℚ) * 100) })]
              else []) ++ ml,
             (match invOpt with
              | some inv =>
                if 0 < inv then
                  [(col, { count := inv
                           percentage := pyRound2 ((inv : ℚ) / (total : ℚ) * 100)
                           expected_type := ty })]
                else []
              | none => []) ++ il,
             (fl || 0 < m || 0 < invOpt.getD 0))

/-- Model of `detect_quality_issues rows schema`. -/
def detectQuality (rows : List PyRow) (schema : List (PyKey × String)) : Except PyErr QualityReport :=
  match dqCols rows rows.length schema with
  | Except.error e => Except.error e
  | Except.ok (ml, il, fl) =>
    Except.ok { total_rows := rows.length
                missing_values := ml
                invalid_values := il
                has_issues := fl }

/-- The summary dict assembled by `process_csv_file` (the engine's
`Report`). -/
structure Report where
  file_name : String
  upload_timestamp : String
  processed_timestamp : String
  row_count : ℕ
  column_count : ℕ
  schema : List (PyKey × String)
  statistics : List (PyKey × ColStats)
  quality_issues : QualityReport
deriving DecidableEq

/-- Model of `process_csv_file` on the parsed records of the input bytes:
build the `DictReader` rows, fail with the empty-input `ValueError` when
there are none, take the column list from the first row's keys, then infer
the schema, compute statistics and quality issues, and assemble the report.
The processed timestamp (`datetime.utcnow()`) is an explicit argument. -/
def process (records : List (List String)) (fileName uploadTs procTs : String) : Except PyErr Report :=
  match dictReadRows records with
  | [] => Except.error PyErr.emptyInput
  | r0 :: rest =>
    match inferSchema (r0 :: rest) (pyKeys r0) with
    | Except.error e => Except.error e
    | Except.ok schema =>
      match computeStatistics (r0 :: rest) schema with
      | Except.error e => Except.error e
      | Except.ok stats =>
        match detectQuality (r0 :: rest) schema with
        | Except.error e => Except.error e
        | Except.ok quality =>
          Except.ok { file_name := fileName
                      upload_timestamp := uploadTs
                      processed_timestamp := procTs
                      row_count := (r0 :: rest).length
                      column_count := (pyKeys r0).length
                      schema := schema
                      statistics := stats
                      quality_issues := quality }

/-- First-match lookup in an association list with unique keys. -/
def lookupA {α : Type} : List (PyKey × α) → PyKey → Option α
  | [], _ => none
  | (k, v) :: rest, k2 => if k = k2 then some v else lookupA rest k2

/-- Truncate every data record to the header's width (used to state that
extra trailing fields are ignored). -/
def truncRecords : List (List String) → List (List String)
  | [] => []
  | header :: rest => header :: rest.map (fun r => r.take header.length)

/-- Erase the only field of a report that depends on the processing clock. -/
def eraseTimestamp (r : Report) : Report :=
  { r with processed_timestamp := "" }

/-- C9: `process` is deterministic and idempotent — two invocations on
identical records and file identity produce reports identical in every field
except `processed_timestamp` (the only clock-dependent field). -/
theorem c9_process_idempotent (records : List (List String)) (n u t1 t2 : String) :
    (process records n u t1).map eraseTimestamp
      = (process records n u t2).map eraseTimestamp := by
  simp only [process]
  split
  · rfl
  · split
    · rfl
    · split
      · rfl
      · split
        · rfl
        · rfl

theorem collectValues_err (col : PyKey) (rows : List PyRow) :
    ∀ e, collectValues col rows = Except.error e → e ≠ PyErr.emptyInput := by
  induction rows with
  | nil => intro e h; simp [collectValues] at h
  | cons r rest ih =>
    intro e h
    simp only [collectValues] at h
    split at h
    · cases h; decide
    · split at h
      · cases h
        exact ih _ (by assumption)
      · simp at h
    · cases h; decide

theorem colSchema_err (rows : List PyRow) (col : PyKey) :
    ∀ e, colSchema rows col = Except.error e → e ≠ PyErr.emptyInput := by
  intro e h
  simp only [colSchema] at h
  split at h
  · cases h
    exact collectValues_err col rows _ (by assumption)
  · simp at h

theorem inferSchema_err (rows : List PyRow) (cols : List PyKey) :
    ∀ e, inferSchema rows cols = Except.error e → e ≠ PyErr.emptyInput := by
  induction cols with
  | nil => intro e h; simp [inferSchema] at h
  | cons c cs ih =>
    intro e h
    simp only [inferSchema] at h
    split at h
    · cases h
      exact colSchema_err rows c _ (by assumption)
    · split at h
      · cases h
        exact ih _ (by assumption)
      · simp at h

theorem parsedValuesE_err (col : PyKey) (ty : String) (rows : List PyRow) :
    ∀ e, parsedValuesE col ty rows = Except.error e → e ≠ PyErr.emptyInput := by
  induction rows with
  | nil => intro e h; simp [parsedValuesE] at h
  | cons r rest ih =>
    intro e h
    simp only [parsedValuesE] at h
    split at h
    · exact ih _ h
    · split at h
      · cases h
        exact ih _ (by assumption)
      · simp at h
    · cases h; decide

theorem computeStatistics_err (rows : List PyRow) (schema : List (PyKey × String)) :
    ∀ e, computeStatistics rows schema = Except.error e → e ≠ PyErr.emptyInput := by
  induction schema with
  | nil => intro e h; simp [computeStatistics] at h
  | cons p rest ih =>
    intro e h
    obtain ⟨col, ty⟩ := p
    simp only [computeStatistics] at h
    split at h
    · split at h
      · cases h
        exact parsedValuesE_err col ty rows _ (by assumption)
      · split at h
        · cases h
          exact ih _ (by assumption)
        · simp at h
    · exact ih _ h

theorem missingCountE_err (col : PyKey) (rows : List PyRow) :
    ∀ e, missingCountE col rows = Except.error e → e ≠ PyErr.emptyInput := by
  induction rows with
  | nil => intro e h; simp [missingCountE] at h
  | cons r rest ih =>
    intro e h
    simp only [missingCountE] at h
    split at h
    · split at h
      · cases h
        exact ih _ (by assumption)
      · simp at h
    · cases h; decide

theorem invalidCountE_err (col : PyKey) (ty : String) (rows : List PyRow) :
    ∀ e, invalidCountE col ty rows = Except.error e → e ≠ PyErr.emptyInput := by
  induction rows with
  | nil => intro e h; simp [invalidCountE] at h
  | cons r rest ih =>
    intro e h
    simp only [invalidCountE] at h
    split at h
    · split at h
      · cases h
        exact ih _ (by assumption)
      · simp at h
    · cases h; decide

theorem dqCols_err (rows : List PyRow) (total : ℕ) (schema : List (PyKey × String)) :
    ∀ e, dqCols rows total schema = Except.error e → e ≠ PyErr.emptyInput := by
  induction schema with
  | nil => intro e h; simp [dqCols] at h
  | cons p rest ih =>
    intro e h
    obtain ⟨col, ty⟩ := p
    simp only [dqCols] at h
    split at h
    · cases h
      exact missingCountE_err col rows _ (by assumption)
    · split at h
      · rename_i heq
        cases h
        split at heq
        · cases hi : invalidCountE col ty rows with
          | error e2 =>
            rw [hi] at heq
            cases heq
            exact invalidCountE_err col ty rows _ hi
          | ok n => rw [hi] at heq; cases heq
        · cases heq
      · split at h
        · cases h
          exact ih _ (by assumption)
        · simp at h

theorem detectQuality_err (rows : List PyRow) (schema : List (PyKey × String)) :
    ∀ e, detectQuality rows schema = Except.error e → e ≠ PyErr.emptyInput := by
  intro e h
  simp only [detectQuality] at h
  split at h
  · cases h
    exact dqCols_err rows rows.length schema _ (by assumption)
  · simp at h

/-- C7: `process` fails with the empty-input error exactly when the parsed
input has no header record or no non-blank data record after the header
(blank records are skipped by the reader); with at least one data row the
error is never raised. -/
theorem c7_empty_input_iff (records : List (List String)) (n u t : String) :
    process records n u t = Except.error PyErr.emptyInput ↔
      (records.drop 1).filter (fun r => !r.isEmpty) = [] := by
  constructor
  · intro h
    cases hd : dictReadRows records with
    | nil =>
      cases records with
      | nil => rfl
      | cons hdr tl =>
        simp only [dictReadRows] at hd
        simpa using hd
    | cons r0 rest =>
      exfalso
      simp only [process, hd] at h
      split at h
      · cases h
        exact inferSchema_err _ _ _ (by assumption) rfl
      · split at h
        · cases h
          exact computeStatistics_err _ _ _ (by assumption) rfl
        · split at h
          · cases h
            exact detectQuality_err _ _ _ (by assumption) rfl
          · simp at h
  · intro h
    have hd : dictReadRows records = [] := by
      cases records with
      | nil => rfl
      | cons hdr tl =>
        have htl : tl.filter (fun r => !r.isEmpty) = [] := h
        simp [dictReadRows, htl]
    simp [process, hd]

/-- C2: for a column that reaches the date test (the int test and the float
test both failed), the result is `'date'` precisely when one of the four
formats — tried in source order `%Y-%m-%d`, `%m/%d/%Y`, `%d/%m/%Y`,
`%Y/%m/%d` — parses all of the first 10 non-empty values (`values[:10]`;
later values are never examined), the first accepted format winning. -/
theorem c2_date_stage (values : List String)
    (h1 : ¬ values.all pyIntOk = true) (h2 : ¬ values.all pyFloatOk = true) :
    infer_column_type values = "date" ↔
      ∃ f ∈ dateFormats, ∀ v ∈ values.take 10, strptimeOk f v = true := by
  simp only [infer_column_type, if_neg h1, if_neg h2]
  cases hf : dateFormats.find? (fun f => (values.take 10).all (strptimeOk f)) with
  | none =>
    simp only [List.find?_eq_none] at hf
    constructor
    · intro h; exact absurd h (by decide)
    · rintro ⟨f, hmem, hall⟩
      exact absurd (by simpa [List.all_eq_true] using hall) (hf f hmem)
  | some f =>
    constructor
    · intro _
      refine ⟨f, List.mem_of_find?_eq_some hf, ?_⟩
      have := List.find?_some hf
      simpa [List.all_eq_true] using this
    · intro _; rfl

/-- C2 witness: a concrete column of one ISO date reaches the date test and
is typed `'date'`. -/
theorem c2_date_stage_witness :
    ¬ (["2023-01-15"].all pyIntOk) = true ∧
      ¬ (["2023-01-15"].all pyFloatOk) = true ∧
      infer_column_type ["2023-01-15"] = "date" :=
  ⟨by decide, by decide,
    (c2_date_stage ["2023-01-15"] (by decide) (by decide)).mpr
      ⟨DateFmt.ymdDash, by decide, by decide⟩⟩

/-- C3: given the collected non-empty values of a column, the inferred type
is `'int'` iff there is at least one such value and every one of them is
accepted by Python's `int()` (base-10 signed integer, no decimal point, no
exponent). -/
theorem c3_int_iff (rows : List PyRow) (col : PyKey) (vs : List String)
    (h : collectValues col rows = Except.ok vs) :
    colSchema rows col = Except.ok "int" ↔ (vs ≠ [] ∧ vs.all pyIntOk = true) := by
  simp only [colSchema, h]
  cases hv : vs.isEmpty with
  | true =>
    have : vs = [] := by simpa [List.isEmpty_iff] using hv
    simp [this]
  | false =>
    have hne : vs ≠ [] := by simpa [List.isEmpty_iff] using (by simp [hv] : ¬ vs.isEmpty = true)
    simp only [hv, Bool.false_eq_true, if_false]
    constructor
    · intro hok
      refine ⟨hne, ?_⟩
      by_contra hall
      simp only [infer_column_type, if_neg hall] at hok
      split at hok
      · simp at hok
      · split at hok <;> simp at hok
    · rintro ⟨-, hall⟩
      simp [infer_column_type, hall]

/-- C3 witness: a concrete single-value integer column is typed `'int'`. -/
theorem c3_int_iff_witness :
    collectValues (some "n") [[(some "n", PyVal.vstr "1")]] = Except.ok ["1"] ∧
      colSchema [[(some "n", PyVal.vstr "1")]] (some "n") = Except.ok "int" :=
  ⟨by decide,
    (c3_int_iff [[(some "n", PyVal.vstr "1")]] (some "n") ["1"] (by decide)).mpr
      ⟨by decide, by decide⟩⟩

theorem dqCols_percent (rows : List PyRow) (total : ℕ) (schema : List (PyKey × String)) :
    ∀ ml il fl, dqCols rows total schema = Except.ok (ml, il, fl) →
      (∀ p ∈ ml, p.2.percentage = pyRound2 ((p.2.count : ℚ) / (total : ℚ) * 100)) ∧
      (∀ p ∈ il, p.2.percentage = pyRound2 ((p.2.count : ℚ) / (total : ℚ) * 100)) := by
  induction schema with
  | nil =>
    intro ml il fl h
    simp only [dqCols, Except.ok.injEq, Prod.mk.injEq] at h
    obtain ⟨h1, h2, h3⟩ := h
    subst h1; subst h2
    simp
  | cons p rest ih =>
    intro ml il fl h
    obtain ⟨col, ty⟩ := p
    simp only [dqCols] at h
    split at h
    · cases h
    · split at h
      · cases h
      · split at h
        · cases h
        · rename_i hinvEq sc3 ml2 il2 fl2 hrest
          simp only [Except.ok.injEq, Prod.mk.injEq] at h
          obtain ⟨hml, hil, hfl⟩ := h
          subst hml; subst hil
          obtain ⟨ihm, ihi⟩ := ih ml2 il2 fl2 hrest
          constructor
          · intro q hq
            rcases List.mem_append.mp hq with hq | hq
            · split at hq
              · simp only [List.mem_singleton] at hq
                subst hq
                rfl
              · simp at hq
            · exact ihm q hq
          · intro q hq
            rcases List.mem_append.mp hq with hq | hq
            · split at hq
              · split at hq
                · simp only [List.mem_singleton] at hq
                  subst hq
                  rfl
                · simp at hq
              · simp at hq
            · exact ihi q hq

/-- C6: in every produced quality report, `total_rows` is the dataset row
count, and every `missing_values` / `invalid_values` entry's percentage is
`round(count / total_rows * 100, 2)` — the denominator is always the row
count of the whole dataset. -/
theorem c6_percentage_total_rows (rows : List PyRow) (schema : List (PyKey × String))
    (q : QualityReport) (h : detectQuality rows schema = Except.ok q) :
    q.total_rows = rows.length ∧
      (∀ p ∈ q.missing_values,
        p.2.percentage = pyRound2 ((p.2.count : ℚ) / (q.total_rows : ℚ) * 100)) ∧
      (∀ p ∈ q.invalid_values,
        p.2.percentage = pyRound2 ((p.2.count : ℚ) / (q.total_rows : ℚ) * 100)) := by
  simp only [detectQuality] at h
  split at h
  · cases h
  · rename_i ml il fl heq
    cases h
    obtain ⟨hm, hi⟩ := dqCols_percent rows rows.length schema ml il fl heq
    exact ⟨rfl, hm, hi⟩

/-- C6 witness: a two-row single-column dataset with one missing value gets
percentage `round(1/2*100, 2) = 50`. -/
theorem c6_percentage_total_rows_witness :
    detectQuality [[(some "n", PyVal.vstr "1")], [(some "n", PyVal.vstr "")]]
        [(some "n", "int")]
      = Except.ok { total_rows := 2
                    missing_values :=
                      [(some "n", { count := 1, percentage := 50 })]
                    invalid_values := []
                    has_issues := true } ∧
      (50 : ℚ) = pyRound2 ((1 : ℚ) / (2 : ℚ) * 100) := by
  have hdq : detectQuality [[(some "n", PyVal.vstr "1")], [(some "n", PyVal.vstr "")]]
        [(some "n", "int")]
      = Except.ok { total_rows := 2
                    missing_values := [(some "n", { count := 1, percentage := pyRound2 (((1 : ℕ) : ℚ) / ((2 : ℕ) : ℚ) * 100) })]
                    invalid_values := []
                    has_issues := true } := by rfl
  have hval : pyRound2 (((1 : ℕ) : ℚ) / ((2 : ℕ) : ℚ) * 100) = 50 := by
    norm_num [pyRound2, roundHalfEven]
  have hc := (c6_percentage_total_rows
      [[(some "n", PyVal.vstr "1")], [(some "n", PyVal.vstr "")]]
      [(some "n", "int")] _ hdq).2.1
        ((some "n", { count := 1, percentage := pyRound2 (((1 : ℕ) : ℚ) / ((2 : ℕ) : ℚ) * 100) }))
        (by simp)
  constructor
  · rw [hval] at hdq
    exact hdq
  · rw [← hval]
    norm_num [pyRound2, roundHalfEven]

theorem dqCols_flag (rows : List PyRow) (total : ℕ) (schema : List (PyKey × String)) :
    ∀ ml il fl, dqCols rows total schema = Except.ok (ml, il, fl) →
      ((fl = true ↔ ∃ p ∈ schema,
          (∃ n, missingCountE p.1 rows = Except.ok n ∧ 0 < n) ∨
          ((p.2 = "int" ∨ p.2 = "float") ∧
            ∃ n, invalidCountE p.1 p.2 rows = Except.ok n ∧ 0 < n)) ∧
        ∀ p ∈ il, p.2.expected_type = "int" ∨ p.2.expected_type = "float") := by
  induction schema with
  | nil =>
    intro ml il fl h
    simp only [dqCols, Except.ok.injEq, Prod.mk.injEq] at h
    obtain ⟨h1, h2, h3⟩ := h
    subst h2; subst h3
    simp
  | cons p rest ih =>
    intro ml il fl h
    obtain ⟨col, ty⟩ := p
    simp only [dqCols] at h
    split at h
    · cases h
    · rename_i m hmiss
      split at h
      · cases h
      · rename_i invOpt hinvEq
        split at h
        · cases h
        · rename_i sc3 ml2 il2 fl2 hrest
          simp only [Except.ok.injEq, Prod.mk.injEq] at h
          obtain ⟨hml, hil, hfl⟩ := h
          subst hil
          obtain ⟨ihf, ihe⟩ := ih ml2 il2 fl2 hrest
          have hcase :
              ((ty = "int" ∨ ty = "float") ∧
                ∃ inv, invalidCountE col ty rows = Except.ok inv ∧ invOpt = some inv) ∨
              (¬(ty = "int" ∨ ty = "float") ∧ invOpt = none) := by
            by_cases hty : ty = "int" ∨ ty = "float"
            · rw [if_pos (by rcases hty with h | h <;> simp [h])] at hinvEq
              cases hi : invalidCountE col ty rows with
              | error e => rw [hi] at hinvEq; simp [Except.map] at hinvEq
              | ok inv =>
                rw [hi] at hinvEq
                simp only [Except.map] at hinvEq
                exact Or.inl ⟨hty, inv, rfl, (Except.ok.inj hinvEq).symm⟩
            · rw [if_neg (by simp [hty])] at hinvEq
              exact Or.inr ⟨hty, (Except.ok.inj hinvEq).symm⟩
          constructor
          · rw [← hfl]
            simp only [Bool.or_eq_true, decide_eq_true_eq, ihf, List.mem_cons]
            constructor
            · rintro ((hfl2 | hm) | hio)
              · obtain ⟨q, hq, hdis⟩ := hfl2
                exact ⟨q, Or.inr hq, hdis⟩
              · exact ⟨(col, ty), Or.inl rfl, Or.inl ⟨m, hmiss, hm⟩⟩
              · rcases hcase with ⟨hty, inv, hi, hio2⟩ | ⟨hty, hio2⟩
                · subst hio2
                  exact ⟨(col, ty), Or.inl rfl, Or.inr ⟨hty, inv, hi, by simpa using hio⟩⟩
                · subst hio2
                  simp at hio
            · rintro ⟨q, hq | hq, hdis⟩
              · subst hq
                rcases hdis with ⟨n, hn, hpos⟩ | ⟨hty, n, hn, hpos⟩
                · rw [hmiss] at hn
                  cases hn
                  exact Or.inl (Or.inr hpos)
                · rcases hcase with ⟨-, inv, hi, hio2⟩ | ⟨hty2, -⟩
                  · subst hio2
                    rw [hi] at hn
                    cases hn
                    exact Or.inr (by simpa using hpos)
                  · exact absurd hty hty2
              · exact Or.inl (Or.inl ⟨q, hq, hdis⟩)
          · intro q hq
            rcases List.mem_append.mp hq with hq | hq
            · rcases hcase with ⟨hty, inv, hi, hio2⟩ | ⟨hty, hio2⟩ <;> subst hio2
              · simp only [] at hq
                split at hq
                · simp only [List.mem_singleton] at hq
                  subst hq
                  exact hty
                · simp at hq
              · simp at hq
            · exact ihe q hq

/-- C4: in every produced quality report, `has_issues` is true iff some
schema column has a positive missing count or — for `'int'`/`'float'`
columns only — a positive invalid count; every `invalid_values` entry's
expected type is `'int'` or `'float'` (date and string columns are never
checked for invalid values). -/
theorem c4_has_issues_iff (rows : List PyRow) (schema : List (PyKey × String))
    (q : QualityReport) (h : detectQuality rows schema = Except.ok q) :
    (q.has_issues = true ↔ ∃ p ∈ schema,
        (∃ n, missingCountE p.1 rows = Except.ok n ∧ 0 < n) ∨
        ((p.2 = "int" ∨ p.2 = "float") ∧
          ∃ n, invalidCountE p.1 p.2 rows = Except.ok n ∧ 0 < n)) ∧
      ∀ p ∈ q.invalid_values, p.2.expected_type = "int" ∨ p.2.expected_type = "float" := by
  simp only [detectQuality] at h
  split at h
  · cases h
  · rename_i ml il fl heq
    cases h
    exact dqCols_flag rows rows.length schema ml il fl heq

/-- C4 witness: a dataset with one missing value in an int column has
`has_issues = true`. -/
theorem c4_has_issues_iff_witness :
    detectQuality [[(some "n", PyVal.vstr "")]] [(some "n", "int")]
        = Except.ok { total_rows := 1
                      missing_values := [(some "n", { count := 1, percentage := pyRound2 (((1 : ℕ) : ℚ) / ((1 : ℕ) : ℚ) * 100) })]
                      invalid_values := []
                      has_issues := true } ∧
      (true = true ↔ ∃ p ∈ [((some "n" : PyKey), "int")],
        (∃ n, missingCountE p.1 [[(some "n", PyVal.vstr "")]] = Except.ok n ∧ 0 < n) ∨
        ((p.2 = "int" ∨ p.2 = "float") ∧
          ∃ n, invalidCountE p.1 p.2 [[(some "n", PyVal.vstr "")]] = Except.ok n ∧ 0 < n)) := by
  have hdq : detectQuality [[(some "n", PyVal.vstr "")]] [(some "n", "int")]
      = Except.ok { total_rows := 1
                    missing_values := [(some "n", { count := 1, percentage := pyRound2 (((1 : ℕ) : ℚ) / ((1 : ℕ) : ℚ) * 100) })]
                    invalid_values := []
                    has_issues := true } := by rfl
  exact ⟨hdq, (c4_has_issues_iff [[(some "n", PyVal.vstr "")]] [(some "n", "int")] _ hdq).1⟩

theorem lookupA_eq_none {α : Type} (l : List (PyKey × α)) (k : PyKey)
    (h : k ∉ l.map Prod.fst) : lookupA l k = none := by
  induction l with
  | nil => rfl
  | cons p rest ih =>
    obtain ⟨k1, v⟩ := p
    simp only [List.map_cons, List.mem_cons] at h
    push_neg at h
    simp only [lookupA, if_neg (Ne.symm h.1)]
    exact ih h.2

theorem computeStatistics_keys (rows : List PyRow) (schema : List (PyKey × String)) :
    ∀ stats, computeStatistics rows schema = Except.ok stats →
      ∀ p ∈ stats, p.1 ∈ schema.map Prod.fst := by
  induction schema with
  | nil =>
    intro stats h
    simp only [computeStatistics, Except.ok.injEq] at h
    subst h
    simp
  | cons hd rest ih =>
    intro stats h
    obtain ⟨col, ty⟩ := hd
    simp only [computeStatistics] at h
    split at h
    · split at h
      · cases h
      · rename_i vs hvs
        split at h
        · cases h
        · rename_i tail htail
          simp only [Except.ok.injEq] at h
          subst h
          intro p hp
          cases vs with
          | nil => exact List.mem_cons_of_mem _ (ih tail htail p hp)
          | cons v vs2 =>
            rcases List.mem_cons.mp hp with hp | hp
            · subst hp; simp
            · exact List.mem_cons_of_mem _ (ih tail htail p hp)
    · intro p hp
      exact List.mem_cons_of_mem _ (ih stats h p hp)

theorem computeStatistics_char (rows : List PyRow) (schema : List (PyKey × String))
    (hnd : (schema.map Prod.fst).Nodup) :
    ∀ stats, computeStatistics rows schema = Except.ok stats →
      ∀ col,
        (lookupA schema col = none → lookupA stats col = none) ∧
        (∀ ty, lookupA schema col = some ty →
          (¬(ty = "int" ∨ ty = "float") → lookupA stats col = none) ∧
          ((ty = "int" ∨ ty = "float") →
            ∃ vs, parsedValuesE col ty rows = Except.ok vs ∧
              lookupA stats col = (match vs with
                                   | [] => none
                                   | v :: vs2 => some (mkColStats v vs2)))) := by
  induction schema with
  | nil =>
    intro stats h col
    simp only [computeStatistics, Except.ok.injEq] at h
    subst h
    exact ⟨fun _ => rfl, fun ty hty => by cases hty⟩
  | cons hd rest ih =>
    intro stats h col
    obtain ⟨c, ty0⟩ := hd
    simp only [List.map_cons, List.nodup_cons] at hnd
    obtain ⟨hc, hnd2⟩ := hnd
    simp only [computeStatistics] at h
    by_cases hcol : c = col
    · subst hcol
      have hsl : lookupA ((c, ty0) :: rest) c = some ty0 := by
        simp [lookupA]
      split at h
      · rename_i hnum
        have hnum2 : ty0 = "int" ∨ ty0 = "float" := by
          simpa using hnum
        split at h
        · cases h
        · rename_i vs hvs
          split at h
          · cases h
          · rename_i tail htail
            simp only [Except.ok.injEq] at h
            subst h
            constructor
            · intro hnone
              rw [hsl] at hnone
              cases hnone
            · intro ty hty
              rw [hsl] at hty
              cases hty
              refine ⟨fun hnn => absurd hnum2 hnn, fun _ => ⟨vs, hvs, ?_⟩⟩
              cases vs with
              | nil =>
                refine lookupA_eq_none tail c (fun hmem => hc ?_)
                obtain ⟨p, hp, hpe⟩ := List.mem_map.mp hmem
                exact hpe ▸ computeStatistics_keys rows rest tail htail p hp
              | cons v vs2 =>
                simp [lookupA]
      · rename_i hnum
        have hnum2 : ¬(ty0 = "int" ∨ ty0 = "float") := by
          simpa using hnum
        constructor
        · intro hnone
          rw [hsl] at hnone
          cases hnone
        · intro ty hty
          rw [hsl] at hty
          cases hty
          refine ⟨fun _ => ?_, fun hnn => absurd hnn hnum2⟩
          refine lookupA_eq_none stats c (fun hmem => hc ?_)
          obtain ⟨p, hp, hpe⟩ := List.mem_map.mp hmem
          exact hpe ▸ computeStatistics_keys rows rest stats h p hp
    · have hsl : lookupA ((c, ty0) :: rest) col = lookupA rest col := by
        simp [lookupA, hcol]
      split at h
      · split at h
        · cases h
        · rename_i vs hvs
          split at h
          · cases h
          · rename_i tail htail
            simp only [Except.ok.injEq] at h
            subst h
            have hrec := ih hnd2 tail htail col
            cases vs with
            | nil =>
              exact ⟨fun hn => hrec.1 (by rwa [hsl] at hn),
                fun ty hty => hrec.2 ty (by rwa [hsl] at hty)⟩
            | cons v vs2 =>
              have hskip : lookupA ((c, mkColStats v vs2) :: tail) col
                  = lookupA tail col := by
                simp [lookupA, hcol]
              rw [hskip]
              exact ⟨fun hn => hrec.1 (by rwa [hsl] at hn),
                fun ty hty => hrec.2 ty (by rwa [hsl] at hty)⟩
      · have hrec := ih hnd2 stats h col
        exact ⟨fun hn => hrec.1 (by rwa [hsl] at hn),
          fun ty hty => hrec.2 ty (by rwa [hsl] at hty)⟩

/-- C5: the statistics map is sparse — a column has an entry iff its schema
type is `'int'` or `'float'` and at least one of its values parses as that
type; columns with no parseable value (in particular all-empty columns,
typed `'string'`) and date/string columns never appear. -/
theorem c5_statistics_sparse (rows : List PyRow) (schema : List (PyKey × String))
    (stats : List (PyKey × ColStats)) (col : PyKey)
    (hnd : (schema.map Prod.fst).Nodup)
    (h : computeStatistics rows schema = Except.ok stats) :
    (lookupA stats col).isSome = true ↔
      ∃ ty vs, lookupA schema col = some ty ∧ (ty = "int" ∨ ty = "float") ∧
        parsedValuesE col ty rows = Except.ok vs ∧ vs ≠ [] := by
  have hch := computeStatistics_char rows schema hnd stats h col
  constructor
  · intro hsome
    cases hsc : lookupA schema col with
    | none =>
      rw [hch.1 hsc] at hsome
      simp at hsome
    | some ty =>
      by_cases hnum : ty = "int" ∨ ty = "float"
      · obtain ⟨vs, hvs, hlook⟩ := (hch.2 ty hsc).2 hnum
        cases vs with
        | nil =>
          rw [hlook] at hsome
          simp at hsome
        | cons v vs2 => exact ⟨ty, v :: vs2, rfl, hnum, hvs, by simp⟩
      · rw [(hch.2 ty hsc).1 hnum] at hsome
        simp at hsome
  · rintro ⟨ty, vs, hsc, hnum, hvs, hne⟩
    obtain ⟨vs2, hvs2, hlook⟩ := (hch.2 ty hsc).2 hnum
    rw [hvs] at hvs2
    have hv : vs = vs2 := Except.ok.inj hvs2
    subst hv
    cases vs with
    | nil => exact absurd rfl hne
    | cons v vs3 =>
      rw [hlook]
      rfl

/-- C5 witness: a one-row int column gets a statistics entry, backed by its
one parsed value. -/
theorem c5_statistics_sparse_witness :
    computeStatistics [[(some "a", PyVal.vstr "1")]] [(some "a", "int")]
        = Except.ok [(some "a", mkColStats (PFloat.prat ((1 : ℤ) : ℚ)) [])] ∧
      (lookupA [(some "a", mkColStats (PFloat.prat ((1 : ℤ) : ℚ)) [])] (some "a")).isSome = true := by
  have hcs : computeStatistics [[(some "a", PyVal.vstr "1")]] [(some "a", "int")]
      = Except.ok [(some "a", mkColStats (PFloat.prat ((1 : ℤ) : ℚ)) [])] := by rfl
  refine ⟨hcs, ?_⟩
  exact (c5_statistics_sparse [[(some "a", PyVal.vstr "1")]] [(some "a", "int")]
      [(some "a", mkColStats (PFloat.prat ((1 : ℤ) : ℚ)) [])] (some "a")
      (by simp) hcs).mpr
    ⟨"int", [PFloat.prat ((1 : ℤ) : ℚ)], by rfl, Or.inl rfl, by rfl, by simp⟩

theorem dropEndWhile_cons (p : Char → Bool) (c : Char) (l : List Char) :
    dropEndWhile p (c :: l) =
      (if (dropEndWhile p l).isEmpty && p c then [] else c :: dropEndWhile p l) := rfl

theorem dropEndWhile_idem (p : Char → Bool) (l : List Char) :
    dropEndWhile p (dropEndWhile p l) = dropEndWhile p l := by
  induction l with
  | nil => rfl
  | cons c l ih =>
    rw [dropEndWhile_cons]
    by_cases hc : ((dropEndWhile p l).isEmpty && p c) = true
    · rw [if_pos hc]
      rfl
    · rw [if_neg hc, dropEndWhile_cons, ih]
      rw [if_neg hc]

theorem dropWhile_dropEndWhile (p : Char → Bool) (l : List Char)
    (hl : l.dropWhile p = l) :
    (dropEndWhile p l).dropWhile p = dropEndWhile p l := by
  cases l with
  | nil => rfl
  | cons c l =>
    have hc : ¬ p c = true := by
      have h0 := List.dropWhile_eq_self_iff.mp hl (by simp)
      simpa using h0
    rw [dropEndWhile_cons, if_neg (by simp [hc])]
    simp [List.dropWhile_cons, hc]

theorem pyStripL_idem (l : List Char) : pyStripL (pyStripL l) = pyStripL l := by
  unfold pyStripL
  rw [dropWhile_dropEndWhile isPyWs (l.dropWhile isPyWs)
        (List.dropWhile_idempotent isPyWs l)]
  exact dropEndWhile_idem isPyWs (l.dropWhile isPyWs)

theorem pyStrip_idem (s : String) : pyStrip (pyStrip s) = pyStrip s := by
  simp [pyStrip, pyStripL_idem]

theorem pyIntVal_strip (s : String) : pyIntVal (pyStrip s) = pyIntVal s := by
  simp [pyIntVal, pyStrip, pyIntValL, pyStripL_idem]

theorem pyFloatVal_strip (s : String) : pyFloatVal (pyStrip s) = pyFloatVal s := by
  simp [pyFloatVal, pyStrip, pyFloatValL, pyStripL_idem]

theorem parseByType_strip (ty : String) (s : String) :
    parseByType ty (pyStrip s) = parseByType ty s := by
  simp [parseByType, pyIntVal_strip, pyFloatVal_strip]

theorem pyIntVal_of_strip_empty (s : String) (h : pyStrip s = "") :
    pyIntVal s = none := by
  have hl : pyStripL s.data = [] := congrArg String.data h
  simp [pyIntVal, pyIntValL, hl, digitGroupOk]

theorem pyFloatVal_of_strip_empty (s : String) (h : pyStrip s = "") :
    pyFloatVal s = none := by
  have hl : pyStripL s.data = [] := congrArg String.data h
  simp [pyFloatVal, pyFloatValL, hl, floatBody, splitOnCharL, floatMantissa,
    digitGroupOk]

theorem parseByType_of_strip_empty (ty : String) (s : String) (h : pyStrip s = "") :
    parseByType ty s = none := by
  simp [parseByType, pyIntVal_of_strip_empty s h, pyFloatVal_of_strip_empty s h]

theorem lookupA_append {α : Type} (a b : List (PyKey × α)) (k : PyKey) :
    lookupA (a ++ b) k =
      (match lookupA a k with | some v => some v | none => lookupA b k) := by
  induction a with
  | nil => rfl
  | cons p rest ih =>
    obtain ⟨k1, v⟩ := p
    by_cases hk : k1 = k
    · simp [lookupA, hk]
    · simp only [List.cons_append, lookupA, if_neg hk]
      exact ih

theorem lookupA_singleton_ne {α : Type} (k1 k : PyKey) (v : α) (h : ¬ k1 = k) :
    lookupA [(k1, v)] k = none := by
  simp [lookupA, h]

theorem dqCols_keys (rows : List PyRow) (total : ℕ) (schema : List (PyKey × String)) :
    ∀ ml il fl, dqCols rows total schema = Except.ok (ml, il, fl) →
      (∀ p ∈ ml, p.1 ∈ schema.map Prod.fst) ∧
      (∀ p ∈ il, p.1 ∈ schema.map Prod.fst) := by
  induction schema with
  | nil =>
    intro ml il fl h
    simp only [dqCols, Except.ok.injEq, Prod.mk.injEq] at h
    obtain ⟨h1, h2, h3⟩ := h
    subst h1; subst h2
    simp
  | cons p rest ih =>
    intro ml il fl h
    obtain ⟨col, ty⟩ := p
    simp only [dqCols] at h
    split at h
    · cases h
    · rename_i m hmiss
      split at h
      · cases h
      · rename_i invOpt hinvEq
        split at h
        · cases h
        · rename_i sc3 ml2 il2 fl2 hrest
          simp only [Except.ok.injEq, Prod.mk.injEq] at h
          obtain ⟨hml, hil, hfl⟩ := h
          subst hml; subst hil
          obtain ⟨ihm, ihi⟩ := ih ml2 il2 fl2 hrest
          constructor
          · intro q hq
            rcases List.mem_append.mp hq with hq | hq
            · split at hq
              · simp only [List.mem_singleton] at hq
                subst hq
                simp
              · simp at hq
            · exact List.mem_cons_of_mem _ (ihm q hq)
          · intro q hq
            rcases List.mem_append.mp hq with hq | hq
            · split at hq
              · split at hq
                · simp only [List.mem_singleton] at hq
                  subst hq
                  simp
                · simp at hq
              · simp at hq
            · exact List.mem_cons_of_mem _ (ihi q hq)

theorem dqCols_lookup (rows : List PyRow) (total : ℕ) (schema : List (PyKey × String))
    (hnd : (schema.map Prod.fst).Nodup) :
    ∀ ml il fl, dqCols rows total schema = Except.ok (ml, il, fl) →
      ∀ col ty, lookupA schema col = some ty →
        (∃ m, missingCountE col rows = Except.ok m ∧
          (match lookupA ml col with | none => 0 | some e => e.count) = m) ∧
        ((ty = "int" ∨ ty = "float") →
          ∃ i, invalidCountE col ty rows = Except.ok i ∧
            (match lookupA il col with | none => 0 | some e => e.count) = i) := by
  induction schema with
  | nil =>
    intro ml il fl h col ty hty
    cases hty
  | cons p rest ih =>
    intro ml il fl h col ty hty
    obtain ⟨c, ty0⟩ := p
    simp only [List.map_cons, List.nodup_cons] at hnd
    obtain ⟨hc, hnd2⟩ := hnd
    simp only [dqCols] at h
    split at h
    · cases h
    · rename_i m hmiss
      split at h
      · cases h
      · rename_i invOpt hinvEq
        split at h
        · cases h
        · rename_i sc3 ml2 il2 fl2 hrest
          simp only [Except.ok.injEq, Prod.mk.injEq] at h
          obtain ⟨hml, hil, hfl⟩ := h
          subst hml; subst hil
          obtain ⟨mlsub, ilsub⟩ := dqCols_keys rows total rest ml2 il2 fl2 hrest
          by_cases hcol : c = col
          · subst hcol
            have hty0 : ty = ty0 := by
              simp [lookupA] at hty
              exact hty.symm
            subst hty0
            have hml2 : lookupA ml2 c = none :=
              lookupA_eq_none ml2 c (fun hmem => by
                obtain ⟨q, hq, hqe⟩ := List.mem_map.mp hmem
                exact hc (hqe ▸ mlsub q hq))
            have hil2 : lookupA il2 c = none :=
              lookupA_eq_none il2 c (fun hmem => by
                obtain ⟨q, hq, hqe⟩ := List.mem_map.mp hmem
                exact hc (hqe ▸ ilsub q hq))
            constructor
            · refine ⟨m, hmiss, ?_⟩
              rw [lookupA_append]
              by_cases hm : 0 < m
              · rw [if_pos hm]
                simp [lookupA]
              · rw [if_neg hm]
                simp only [lookupA, hml2]
                omega
            · intro hnum
              rw [if_pos (by rcases hnum with h2 | h2 <;> simp [h2])] at hinvEq
              cases hi : invalidCountE c ty rows with
              | error e =>
                rw [hi] at hinvEq
                simp [Except.map] at hinvEq
              | ok inv =>
                rw [hi] at hinvEq
                simp only [Except.map] at hinvEq
                have hio : invOpt = some inv := (Except.ok.inj hinvEq).symm
                subst hio
                refine ⟨inv, rfl, ?_⟩
                dsimp only
                rw [lookupA_append]
                by_cases hinv : 0 < inv
                · rw [if_pos hinv]
                  simp [lookupA]
                · rw [if_neg hinv]
                  simp only [lookupA, hil2]
                  omega
          · have hty2 : lookupA rest col = some ty := by
              simpa [lookupA, hcol] using hty
            obtain ⟨ihm, ihi⟩ := ih hnd2 ml2 il2 fl2 hrest col ty hty2
            constructor
            · obtain ⟨m2, hm2, hcount⟩ := ihm
              refine ⟨m2, hm2, ?_⟩
              rw [lookupA_append]
              have hhead : lookupA (if 0 < m then
                  [(c, ({ count := m, percentage := pyRound2 ((m : ℚ) / (total : ℚ) * 100) } : MissEntry))]
                else []) col = none := by
                split
                · simp [lookupA, hcol]
                · rfl
              rw [hhead]
              exact hcount
            · intro hnum
              obtain ⟨i2, hi2, hcount⟩ := ihi hnum
              refine ⟨i2, hi2, ?_⟩
              rw [lookupA_append]
              have hhead : lookupA (match invOpt with
                  | some inv =>
                    if 0 < inv then
                      [(c, ({ count := inv, percentage := pyRound2 ((inv : ℚ) / (total : ℚ) * 100), expected_type := ty0 } : InvEntry))]
                    else []
                  | none => []) col = none := by
                cases invOpt with
                | none => rfl
                | some inv =>
                  dsimp only
                  split
                  · exact lookupA_singleton_ne c col _ hcol
                  · rfl
              rw [hhead]
              exact hcount

theorem partition_counts (col : PyKey) (ty : String) (rows : List PyRow)
    (hclean : ∀ r ∈ rows, ∃ s, pyGet r col = some (PyVal.vstr s)) :
    ∃ vs m i, parsedValuesE col ty rows = Except.ok vs ∧
      missingCountE col rows = Except.ok m ∧
      invalidCountE col ty rows = Except.ok i ∧
      vs.length + m + i = rows.length := by
  induction rows with
  | nil => exact ⟨[], 0, 0, rfl, rfl, rfl, rfl⟩
  | cons r rest ih =>
    obtain ⟨s, hs⟩ := hclean r (List.mem_cons_self r rest)
    obtain ⟨vs, m, i, hv, hm, hi, hsum⟩ :=
      ih (fun r2 h2 => hclean r2 (List.mem_cons_of_mem r h2))
    by_cases hstrip : pyStrip s = ""
    · have hp : parseByType ty s = none := parseByType_of_strip_empty ty s hstrip
      refine ⟨vs, m + 1, i, ?_, ?_, ?_, ?_⟩
      · simp only [parsedValuesE, hs, hv, hp]
      · simp only [missingCountE, hs, Option.getD_some, hm, if_pos hstrip]
      · simp only [invalidCountE, hs, Option.getD_some, hi, if_pos hstrip]
      · simp only [List.length_cons]
        omega
    · cases hp : parseByType ty s with
      | some v =>
        have hps : (parseByType ty (pyStrip s)).isSome = true := by
          rw [parseByType_strip, hp]
          rfl
        refine ⟨v :: vs, m, i, ?_, ?_, ?_, ?_⟩
        · simp only [parsedValuesE, hs, hv, hp]
        · simp only [missingCountE, hs, Option.getD_some, hm, if_neg hstrip]
        · simp only [invalidCountE, hs, Option.getD_some, hi, if_neg hstrip,
            if_pos hps]
        · simp only [List.length_cons]
          omega
      | none =>
        have hps : ¬ (parseByType ty (pyStrip s)).isSome = true := by
          rw [parseByType_strip, hp]
          simp
        refine ⟨vs, m, i + 1, ?_, ?_, ?_, ?_⟩
        · simp only [parsedValuesE, hs, hv, hp]
        · simp only [missingCountE, hs, Option.getD_some, hm, if_neg hstrip]
        · simp only [invalidCountE, hs, Option.getD_some, hi, if_neg hstrip,
            if_neg hps]
        · simp only [List.length_cons]
          omega

/-- C10: for every `'int'`/`'float'` schema column whose cells are all
strings, the statistics count (0 when the column is absent from the
statistics map), the missing count and the invalid count of the quality
report partition the rows: they sum to the dataset's row count. -/
theorem c10_partition (rows : List PyRow) (schema : List (PyKey × String))
    (stats : List (PyKey × ColStats)) (q : QualityReport) (col : PyKey) (ty : String)
    (hclean : ∀ r ∈ rows, ∃ s, pyGet r col = some (PyVal.vstr s))
    (hnd : (schema.map Prod.fst).Nodup)
    (hty : lookupA schema col = some ty)
    (hnum : ty = "int" ∨ ty = "float")
    (hs : computeStatistics rows schema = Except.ok stats)
    (hq : detectQuality rows schema = Except.ok q) :
    (match lookupA stats col with | none => 0 | some st => st.count)
      + (match lookupA q.missing_values col with | none => 0 | some e => e.count)
      + (match lookupA q.invalid_values col with | none => 0 | some e => e.count)
      = rows.length := by
  obtain ⟨vs, m, i, hv, hm, hi, hsum⟩ := partition_counts col ty rows hclean
  -- statistics count = vs.length
  obtain ⟨vs2, hvs2, hlook⟩ :=
    ((computeStatistics_char rows schema hnd stats hs col).2 ty hty).2 hnum
  rw [hv] at hvs2
  have hveq : vs = vs2 := Except.ok.inj hvs2
  subst hveq
  have hstat : (match lookupA stats col with | none => 0 | some st => st.count)
      = vs.length := by
    rw [hlook]
    cases vs with
    | nil => rfl
    | cons v vs2 => simp [mkColStats]
  -- quality counts
  simp only [detectQuality] at hq
  split at hq
  · cases hq
  · rename_i ml il fl heq
    cases hq
    obtain ⟨hmc, hic⟩ :=
      dqCols_lookup rows rows.length schema hnd ml il fl heq col ty hty
    obtain ⟨m2, hm2, hmcount⟩ := hmc
    obtain ⟨i2, hi2, hicount⟩ := hic hnum
    rw [hm] at hm2
    rw [hi] at hi2
    have hme : m = m2 := Except.ok.inj hm2
    have hie : i = i2 := Except.ok.inj hi2
    subst hme; subst hie
    simp only []
    rw [hstat, hmcount, hicount]
    exact hsum

/-- C10 witness: a three-row int column with one parsed value, one missing
value and one invalid value: 1 + 1 + 1 = 3. -/
theorem c10_partition_witness :
    computeStatistics [[(some "n", PyVal.vstr "1")], [(some "n", PyVal.vstr " ")], [(some "n", PyVal.vstr "x")]] [(some "n", "int")]
        = Except.ok [(some "n", mkColStats (PFloat.prat ((1 : ℤ) : ℚ)) [])] ∧
      (1 : ℕ) + 1 + 1 = 3 := by
  have hrows : ∀ r ∈ [[(some "n", PyVal.vstr "1")], [(some "n", PyVal.vstr " ")], [(some "n", PyVal.vstr "x")]],
      ∃ s, pyGet r (some "n") = some (PyVal.vstr s) := by
    intro r hr
    fin_cases hr
    · exact ⟨"1", rfl⟩
    · exact ⟨" ", rfl⟩
    · exact ⟨"x", rfl⟩
  have hcs : computeStatistics [[(some "n", PyVal.vstr "1")], [(some "n", PyVal.vstr " ")], [(some "n", PyVal.vstr "x")]] [(some "n", "int")]
      = Except.ok [(some "n", mkColStats (PFloat.prat ((1 : ℤ) : ℚ)) [])] := by rfl
  have hdq : detectQuality [[(some "n", PyVal.vstr "1")], [(some "n", PyVal.vstr " ")], [(some "n", PyVal.vstr "x")]] [(some "n", "int")]
      = Except.ok { total_rows := 3
                    missing_values := [(some "n", { count := 1, percentage := pyRound2 (((1 : ℕ) : ℚ) / ((3 : ℕ) : ℚ) * 100) })]
                    invalid_values := [(some "n", { count := 1, percentage := pyRound2 (((1 : ℕ) : ℚ) / ((3 : ℕ) : ℚ) * 100), expected_type := "int" })]
                    has_issues := true } := by rfl
  have hpart := c10_partition
    [[(some "n", PyVal.vstr "1")], [(some "n", PyVal.vstr " ")], [(some "n", PyVal.vstr "x")]]
    [(some "n", "int")]
    [(some "n", mkColStats (PFloat.prat ((1 : ℤ) : ℚ)) [])]
    { total_rows := 3
      missing_values := [(some "n", { count := 1, percentage := pyRound2 (((1 : ℕ) : ℚ) / ((3 : ℕ) : ℚ) * 100) })]
      invalid_values := [(some "n", { count := 1, percentage := pyRound2 (((1 : ℕ) : ℚ) / ((3 : ℕ) : ℚ) * 100), expected_type := "int" })]
      has_issues := true }
    (some "n") "int" hrows (by simp) (by rfl) (Or.inl rfl) hcs hdq
  refine ⟨hcs, ?_⟩
  simp only [lookupA, if_pos rfl] at hpart
  omega

/-- C8 counterexample: the one-column input whose single value is `nan` is
processed successfully into a report whose only statistics entry has
`min = max = avg = nan` and `count = 1`, and `nan ≤ nan` is false in Python,
so `min ≤ mean ≤ max` fails for this produced report. -/
theorem c8_nan_counterexample :
    (process [["x"], ["nan"]] "f.csv" "u" "t").map
        (fun r => r.statistics.all
          (fun p => pyLeB p.2.min p.2.avg && pyLeB p.2.avg p.2.max))
      = Except.ok false := by
  rfl

theorem computeStatistics_mem (rows : List PyRow) (schema : List (PyKey × String)) :
    ∀ stats, computeStatistics rows schema = Except.ok stats →
      ∀ col st, (col, st) ∈ stats →
        ∃ ty v vs, (col, ty) ∈ schema ∧
          parsedValuesE col ty rows = Except.ok (v :: vs) ∧ st = mkColStats v vs := by
  induction schema with
  | nil =>
    intro stats h col st hmem
    simp only [computeStatistics, Except.ok.injEq] at h
    subst h
    cases hmem
  | cons hd rest ih =>
    intro stats h col st hmem
    obtain ⟨c, ty0⟩ := hd
    simp only [computeStatistics] at h
    split at h
    · split at h
      · cases h
      · rename_i vs hvs
        split at h
        · cases h
        · rename_i tail htail
          simp only [Except.ok.injEq] at h
          subst h
          cases vs with
          | nil =>
            obtain ⟨ty, v, vs2, hsch, hpv, hst⟩ := ih tail htail col st hmem
            exact ⟨ty, v, vs2, List.mem_cons_of_mem _ hsch, hpv, hst⟩
          | cons v vs2 =>
            rcases List.mem_cons.mp hmem with hmem | hmem
            · have hcol : c = col ∧ mkColStats v vs2 = st := by
                constructor
                · exact congrArg Prod.fst hmem.symm
                · exact congrArg Prod.snd hmem.symm
              obtain ⟨hc1, hc2⟩ := hcol
              subst hc1
              exact ⟨ty0, v, vs2, List.mem_cons_self _ _, hvs, hc2.symm⟩
            · obtain ⟨ty, v2, vs3, hsch, hpv, hst⟩ := ih tail htail col st hmem
              exact ⟨ty, v2, vs3, List.mem_cons_of_mem _ hsch, hpv, hst⟩
    · obtain ⟨ty, v, vs2, hsch, hpv, hst⟩ := ih stats h col st hmem
      exact ⟨ty, v, vs2, List.mem_cons_of_mem _ hsch, hpv, hst⟩

theorem parsedValuesE_length (col : PyKey) (ty : String) (rows : List PyRow) :
    ∀ vs, parsedValuesE col ty rows = Except.ok vs → vs.length ≤ rows.length := by
  induction rows with
  | nil =>
    intro vs h
    simp only [parsedValuesE, Except.ok.injEq] at h
    subst h
    simp
  | cons r rest ih =>
    intro vs h
    simp only [parsedValuesE] at h
    split at h
    · have := ih vs h
      simp only [List.length_cons]
      omega
    · split at h
      · cases h
      · rename_i tl htl
        simp only [Except.ok.injEq] at h
        subst h
        have := ih tl htl
        split
        · simp only [List.length_cons]
          omega
        · simp only [List.length_cons]
          omega
    · cases h

/-- Rational analogue of the Python `min` fold. -/
def minQ (a : ℚ) (qs : List ℚ) : ℚ :=
  qs.foldl (fun m x => if x < m then x else m) a

/-- Rational analogue of the Python `max` fold. -/
def maxQ (a : ℚ) (qs : List ℚ) : ℚ :=
  qs.foldl (fun m x => if m < x then x else m) a

/-- Rational analogue of the Python `sum` fold. -/
def sumQ (b : ℚ) (qs : List ℚ) : ℚ :=
  qs.foldl (· + ·) b

theorem foldl_pAdd_prat (vs : List PFloat) :
    ∀ a q, vs.foldl pAdd a = PFloat.prat q →
      ∃ qa, a = PFloat.prat qa ∧ ∀ x ∈ vs, ∃ qx, x = PFloat.prat qx := by
  induction vs with
  | nil =>
    intro a q h
    exact ⟨q, h, by simp⟩
  | cons x vs ih =>
    intro a q h
    simp only [List.foldl_cons] at h
    obtain ⟨qb, hb, hall⟩ := ih (pAdd a x) q h
    have hax : ∃ qa qx, a = PFloat.prat qa ∧ x = PFloat.prat qx := by
      cases a <;> cases x <;> simp [pAdd] at hb <;> exact ⟨_, _, rfl, rfl⟩
    obtain ⟨qa, qx, ha, hx⟩ := hax
    refine ⟨qa, ha, ?_⟩
    intro y hy
    rcases List.mem_cons.mp hy with hy | hy
    · exact ⟨qx, hy ▸ hx⟩
    · exact hall y hy

theorem all_prat_exists (vs : List PFloat)
    (h : ∀ x ∈ vs, ∃ qx, x = PFloat.prat qx) :
    ∃ qs : List ℚ, vs = qs.map PFloat.prat := by
  induction vs with
  | nil => exact ⟨[], rfl⟩
  | cons x vs ih =>
    obtain ⟨qx, hx⟩ := h x (List.mem_cons_self x vs)
    obtain ⟨qs, hqs⟩ := ih (fun y hy => h y (List.mem_cons_of_mem x hy))
    exact ⟨qx :: qs, by rw [List.map_cons, ← hx, ← hqs]⟩

theorem pyMin_map (a : ℚ) (qs : List ℚ) :
    pyMin (PFloat.prat a) (qs.map PFloat.prat) = PFloat.prat (minQ a qs) := by
  induction qs generalizing a with
  | nil => rfl
  | cons x qs ih =>
    simp only [pyMin, minQ, List.map_cons, List.foldl_cons] at ih ⊢
    by_cases hx : x < a
    · simp only [pyLtB, decide_eq_true_eq, if_pos hx]
      exact ih x
    · simp only [pyLtB, decide_eq_true_eq, if_neg hx]
      exact ih a

theorem pyMax_map (a : ℚ) (qs : List ℚ) :
    pyMax (PFloat.prat a) (qs.map PFloat.prat) = PFloat.prat (maxQ a qs) := by
  induction qs generalizing a with
  | nil => rfl
  | cons x qs ih =>
    simp only [pyMax, maxQ, List.map_cons, List.foldl_cons] at ih ⊢
    by_cases hx : a < x
    · simp only [pyLtB, decide_eq_true_eq, if_pos hx]
      exact ih x
    · simp only [pyLtB, decide_eq_true_eq, if_neg hx]
      exact ih a

theorem foldl_pAdd_map (qs : List ℚ) :
    ∀ b, (qs.map PFloat.prat).foldl pAdd (PFloat.prat b) = PFloat.prat (sumQ b qs) := by
  induction qs with
  | nil => intro b; rfl
  | cons x qs ih =>
    intro b
    simp only [sumQ, List.map_cons, List.foldl_cons, pAdd]
    exact ih (b + x)

theorem sumQ_shift (qs : List ℚ) : ∀ b, sumQ b qs = b + sumQ 0 qs := by
  induction qs with
  | nil => intro b; simp [sumQ]
  | cons x qs ih =>
    intro b
    simp only [sumQ, List.foldl_cons] at ih ⊢
    rw [ih (b + x), ih (0 + x)]
    ring

theorem minQ_le_init (a : ℚ) (qs : List ℚ) : minQ a qs ≤ a := by
  induction qs generalizing a with
  | nil => exact le_refl a
  | cons x qs ih =>
    simp only [minQ, List.foldl_cons] at ih ⊢
    by_cases hx : x < a
    · rw [if_pos hx]
      exact le_trans (ih x) (le_of_lt hx)
    · rw [if_neg hx]
      exact ih a

theorem init_le_maxQ (a : ℚ) (qs : List ℚ) : a ≤ maxQ a qs := by
  induction qs generalizing a with
  | nil => exact le_refl a
  | cons x qs ih =>
    simp only [maxQ, List.foldl_cons] at ih ⊢
    by_cases hx : a < x
    · rw [if_pos hx]
      exact le_trans (le_of_lt hx) (ih x)
    · rw [if_neg hx]
      exact ih a

theorem minQ_mul_le_sum (qs : List ℚ) :
    ∀ a : ℚ, minQ a qs * ((qs.length : ℚ) + 1) ≤ sumQ a qs := by
  induction qs with
  | nil =>
    intro a
    simp [minQ, sumQ]
  | cons x qs ih =>
    intro a
    have hb : minQ a (x :: qs) = minQ (if x < a then x else a) qs := rfl
    have hs : sumQ a (x :: qs) = sumQ (a + x) qs := rfl
    set b := if x < a then x else a with hbdef
    have hba : b ≤ a := by
      rw [hbdef]
      split
      · exact le_of_lt (by assumption)
      · exact le_refl a
    have hbx : b ≤ x := by
      rw [hbdef]
      split
      · exact le_refl x
      · exact le_of_not_lt (by assumption)
    have hinit := minQ_le_init b qs
    have hih := ih b
    rw [hb, hs, sumQ_shift qs (a + x)]
    rw [sumQ_shift qs b] at hih
    have hlen : ((x :: qs).length : ℚ) = (qs.length : ℚ) + 1 := by
      push_cast [List.length_cons]
      ring
    rw [hlen]
    have hexp : minQ b qs * ((qs.length : ℚ) + 1 + 1)
        = minQ b qs * ((qs.length : ℚ) + 1) + minQ b qs := by
      ring
    rw [hexp]
    linarith

theorem sum_le_maxQ_mul (qs : List ℚ) :
    ∀ a : ℚ, sumQ a qs ≤ maxQ a qs * ((qs.length : ℚ) + 1) := by
  induction qs with
  | nil =>
    intro a
    simp [maxQ, sumQ]
  | cons x qs ih =>
    intro a
    have hb : maxQ a (x :: qs) = maxQ (if a < x then x else a) qs := rfl
    have hs : sumQ a (x :: qs) = sumQ (a + x) qs := rfl
    set b := if a < x then x else a with hbdef
    have hba : a ≤ b := by
      rw [hbdef]
      split
      · exact le_of_lt (by assumption)
      · exact le_refl a
    have hbx : x ≤ b := by
      rw [hbdef]
      split
      · exact le_refl x
      · exact le_of_not_lt (by assumption)
    have hinit := init_le_maxQ b qs
    have hih := ih b
    rw [hb, hs, sumQ_shift qs (a + x)]
    rw [sumQ_shift qs b] at hih
    have hlen : ((x :: qs).length : ℚ) = (qs.length : ℚ) + 1 := by
      push_cast [List.length_cons]
      ring
    rw [hlen]
    have hexp : maxQ b qs * ((qs.length : ℚ) + 1 + 1)
        = maxQ b qs * ((qs.length : ℚ) + 1) + maxQ b qs := by
      ring
    rw [hexp]
    linarith

/-- C8 (amended): for every statistics entry of a produced report,
`count ≤ total_rows` always holds, and `min ≤ mean ≤ max` holds whenever the
mean is a finite number — equivalently, whenever every parsed value is
finite; a `nan` value (or an `inf`/`-inf` mix) breaks the inequality, as the
counterexample shows. -/
theorem c8_stats_bounds (rows : List PyRow) (schema : List (PyKey × String))
    (stats : List (PyKey × ColStats)) (col : PyKey) (st : ColStats)
    (hs : computeStatistics rows schema = Except.ok stats)
    (hmem : (col, st) ∈ stats) :
    st.count ≤ rows.length ∧
      (∀ q, st.avg = PFloat.prat q →
        pyLeB st.min st.avg = true ∧ pyLeB st.avg st.max = true) := by
  obtain ⟨ty, v, vs, hsch, hpv, hst⟩ :=
    computeStatistics_mem rows schema stats hs col st hmem
  subst hst
  constructor
  · have hlen := parsedValuesE_length col ty rows (v :: vs) hpv
    simpa [mkColStats] using hlen
  · intro q hq
    have hsum : ∃ q2, pySum (v :: vs) = PFloat.prat q2 := by
      simp only [mkColStats] at hq
      cases hps : pySum (v :: vs) with
      | prat q2 => exact ⟨q2, rfl⟩
      | pinf => rw [hps] at hq; simp [pDivNat] at hq
      | pninf => rw [hps] at hq; simp [pDivNat] at hq
      | pnan => rw [hps] at hq; simp [pDivNat] at hq
    obtain ⟨q2, hps⟩ := hsum
    obtain ⟨q0, -, hall⟩ := foldl_pAdd_prat (v :: vs) (PFloat.prat 0) q2 hps
    obtain ⟨qv, hv⟩ := hall v (List.mem_cons_self v vs)
    obtain ⟨qs, hqs⟩ :=
      all_prat_exists vs (fun y hy => hall y (List.mem_cons_of_mem v hy))
    subst hv
    subst hqs
    have hmin : (mkColStats (PFloat.prat qv) (qs.map PFloat.prat)).min
        = PFloat.prat (minQ qv qs) := pyMin_map qv qs
    have hmax : (mkColStats (PFloat.prat qv) (qs.map PFloat.prat)).max
        = PFloat.prat (maxQ qv qs) := pyMax_map qv qs
    have hsumv : pySum (PFloat.prat qv :: qs.map PFloat.prat)
        = PFloat.prat (sumQ (0 + qv) qs) := by
      simp only [pySum, List.foldl_cons, pAdd]
      exact foldl_pAdd_map qs (0 + qv)
    have hlen : (PFloat.prat qv :: qs.map PFloat.prat).length = qs.length + 1 := by
      simp
    have havg : (mkColStats (PFloat.prat qv) (qs.map PFloat.prat)).avg
        = PFloat.prat (sumQ (0 + qv) qs / ((qs.length : ℚ) + 1)) := by
      simp only [mkColStats, hsumv, hlen, pDivNat]
      push_cast
      ring_nf
    have hpos : (0 : ℚ) < (qs.length : ℚ) + 1 := by positivity
    have hminle : minQ qv qs ≤ sumQ (0 + qv) qs / ((qs.length : ℚ) + 1) := by
      rw [le_div_iff hpos, zero_add]
      exact minQ_mul_le_sum qs qv
    have hmaxle : sumQ (0 + qv) qs / ((qs.length : ℚ) + 1) ≤ maxQ qv qs := by
      rw [div_le_iff hpos, zero_add]
      exact sum_le_maxQ_mul qs qv
    rw [hmin, hmax, havg]
    constructor
    · simpa [pyLeB] using hminle
    · simpa [pyLeB] using hmaxle

/-- C8 witness: the two-row int column with values 1 and 2 has a finite mean
and satisfies `count ≤ total_rows` and `min ≤ mean ≤ max`. -/
theorem c8_stats_bounds_witness :
    computeStatistics [[(some "a", PyVal.vstr "1")], [(some "a", PyVal.vstr "2")]] [(some "a", "int")]
        = Except.ok [(some "a", mkColStats (PFloat.prat ((1 : ℤ) : ℚ)) [PFloat.prat ((2 : ℤ) : ℚ)])] ∧
      (mkColStats (PFloat.prat ((1 : ℤ) : ℚ)) [PFloat.prat ((2 : ℤ) : ℚ)]).count ≤ 2 ∧
      pyLeB (mkColStats (PFloat.prat ((1 : ℤ) : ℚ)) [PFloat.prat ((2 : ℤ) : ℚ)]).min
        (mkColStats (PFloat.prat ((1 : ℤ) : ℚ)) [PFloat.prat ((2 : ℤ) : ℚ)]).avg = true ∧
      pyLeB (mkColStats (PFloat.prat ((1 : ℤ) : ℚ)) [PFloat.prat ((2 : ℤ) : ℚ)]).avg
        (mkColStats (PFloat.prat ((1 : ℤ) : ℚ)) [PFloat.prat ((2 : ℤ) : ℚ)]).max = true := by
  have hcs : computeStatistics [[(some "a", PyVal.vstr "1")], [(some "a", PyVal.vstr "2")]] [(some "a", "int")]
      = Except.ok [(some "a", mkColStats (PFloat.prat ((1 : ℤ) : ℚ)) [PFloat.prat ((2 : ℤ) : ℚ)])] := by
    rfl
  have h8 := c8_stats_bounds
    [[(some "a", PyVal.vstr "1")], [(some "a", PyVal.vstr "2")]] [(some "a", "int")]
    [(some "a", mkColStats (PFloat.prat ((1 : ℤ) : ℚ)) [PFloat.prat ((2 : ℤ) : ℚ)])]
    (some "a") (mkColStats (PFloat.prat ((1 : ℤ) : ℚ)) [PFloat.prat ((2 : ℤ) : ℚ)])
    hcs (List.mem_singleton.mpr rfl)
  have havg : (mkColStats (PFloat.prat ((1 : ℤ) : ℚ)) [PFloat.prat ((2 : ℤ) : ℚ)]).avg
      = PFloat.prat ((3 : ℚ) / 2) := by
    norm_num [mkColStats, pySum, pAdd, pDivNat, List.foldl_cons, List.foldl_nil]
  obtain ⟨hcount, hord⟩ := h8
  obtain ⟨h1, h2⟩ := hord _ havg
  exact ⟨hcs, by simpa using hcount, h1, h2⟩

/-- C1 counterexample: a data row with fewer fields than the header does
NOT succeed — `DictReader` pads the missing trailing field with `None`, and
`infer_schema`'s `.strip()` on it raises `AttributeError`, so `process`
fails because of the wrong field count. -/
theorem c1_short_row_counterexample :
    process [["a", "b"], ["1"]] "f.csv" "u" "t"
      = Except.error PyErr.attributeError := by
  rfl

theorem zip_take_self {α β : Type} (a : List α) (b : List β) :
    a.zip (b.take a.length) = a.zip b := by
  induction a generalizing b with
  | nil => rfl
  | cons x a ih =>
    cases b with
    | nil => rfl
    | cons y b =>
      simp only [List.length_cons, List.take_succ_cons, List.zip_cons_cons]
      rw [ih b]

theorem pyGet_append_last (l : PyRow) (v : PyVal) (k : String) :
    pyGet (l ++ [((none : PyKey), v)]) (some k) = pyGet l (some k) := by
  simp [pyGet, List.foldl_append]

theorem dictRow_eq_zip (hdr r : List String) (h : r.length = hdr.length) :
    dictRow hdr r
      = (hdr.zip r).map (fun p => (some p.1, PyVal.vstr p.2)) := by
  unfold dictRow
  rw [if_neg (by omega), h, List.drop_length]
  simp

theorem dictRow_take_get (hdr r : List String) (hlen : hdr.length ≤ r.length)
    (k : String) :
    pyGet (dictRow hdr (r.take hdr.length)) (some k)
      = pyGet (dictRow hdr r) (some k) := by
  have htk : (r.take hdr.length).length = hdr.length := by
    simp [List.length_take, Nat.min_eq_left hlen]
  rw [dictRow_eq_zip hdr (r.take hdr.length) htk, zip_take_self]
  unfold dictRow
  rw [List.drop_eq_nil_of_le hlen]
  by_cases hx : hdr.length < r.length
  · rw [if_pos hx]
    simp only [List.map_nil, List.append_nil]
    exact (pyGet_append_last _ _ k).symm
  · rw [if_neg hx]
    simp

theorem dedupFirst_subset (l : List PyKey) :
    ∀ seen, ∀ x ∈ dedupFirst seen l, x ∈ l := by
  induction l with
  | nil => intro seen x hx; cases hx
  | cons k l ih =>
    intro seen x hx
    simp only [dedupFirst] at hx
    split at hx
    · exact List.mem_cons_of_mem k (ih seen x hx)
    · rcases List.mem_cons.mp hx with hx | hx
      · exact hx ▸ List.mem_cons_self k l
      · exact List.mem_cons_of_mem k (ih (k :: seen) x hx)

theorem pyKeys_subset (r : PyRow) : ∀ x ∈ pyKeys r, x ∈ r.map Prod.fst :=
  fun x hx => dedupFirst_subset (r.map Prod.fst) [] x hx

section Congruence

variable {X : Type} (f g : X → PyRow)

theorem collectValues_map_congr (recs : List X) (k : String)
    (hfg : ∀ x ∈ recs, ∀ kk, pyGet (f x) (some kk) = pyGet (g x) (some kk)) :
    collectValues (some k) (recs.map f) = collectValues (some k) (recs.map g) := by
  induction recs with
  | nil => rfl
  | cons x recs ih =>
    simp only [List.map_cons, collectValues]
    rw [hfg x (List.mem_cons_self x recs) k,
      ih (fun y hy => hfg y (List.mem_cons_of_mem x hy))]

theorem parsedValuesE_map_congr (recs : List X) (k : String) (ty : String)
    (hfg : ∀ x ∈ recs, ∀ kk, pyGet (f x) (some kk) = pyGet (g x) (some kk)) :
    parsedValuesE (some k) ty (recs.map f) = parsedValuesE (some k) ty (recs.map g) := by
  induction recs with
  | nil => rfl
  | cons x recs ih =>
    simp only [List.map_cons, parsedValuesE]
    rw [hfg x (List.mem_cons_self x recs) k,
      ih (fun y hy => hfg y (List.mem_cons_of_mem x hy))]

theorem missingCountE_map_congr (recs : List X) (k : String)
    (hfg : ∀ x ∈ recs, ∀ kk, pyGet (f x) (some kk) = pyGet (g x) (some kk)) :
    missingCountE (some k) (recs.map f) = missingCountE (some k) (recs.map g) := by
  induction recs with
  | nil => rfl
  | cons x recs ih =>
    simp only [List.map_cons, missingCountE]
    rw [hfg x (List.mem_cons_self x recs) k,
      ih (fun y hy => hfg y (List.mem_cons_of_mem x hy))]

theorem invalidCountE_map_congr (recs : List X) (k : String) (ty : String)
    (hfg : ∀ x ∈ recs, ∀ kk, pyGet (f x) (some kk) = pyGet (g x) (some kk)) :
    invalidCountE (some k) ty (recs.map f) = invalidCountE (some k) ty (recs.map g) := by
  induction recs with
  | nil => rfl
  | cons x recs ih =>
    simp only [List.map_cons, invalidCountE]
    rw [hfg x (List.mem_cons_self x recs) k,
      ih (fun y hy => hfg y (List.mem_cons_of_mem x hy))]

theorem colSchema_map_congr (recs : List X) (col : PyKey)
    (hcol : ∃ k, col = some k)
    (hfg : ∀ x ∈ recs, ∀ kk, pyGet (f x) (some kk) = pyGet (g x) (some kk)) :
    colSchema (recs.map f) col = colSchema (recs.map g) col := by
  obtain ⟨k, hk⟩ := hcol
  subst hk
  unfold colSchema
  rw [collectValues_map_congr f g recs k hfg]

theorem inferSchema_map_congr (recs : List X) (cols : List PyKey)
    (hcols : ∀ c ∈ cols, ∃ k, c = some k)
    (hfg : ∀ x ∈ recs, ∀ kk, pyGet (f x) (some kk) = pyGet (g x) (some kk)) :
    inferSchema (recs.map f) cols = inferSchema (recs.map g) cols := by
  induction cols with
  | nil => rfl
  | cons c cs ih =>
    simp only [inferSchema]
    rw [colSchema_map_congr f g recs c (hcols c (List.mem_cons_self c cs)) hfg,
      ih (fun c2 hc2 => hcols c2 (List.mem_cons_of_mem c hc2))]

theorem computeStatistics_map_congr (recs : List X) (schema : List (PyKey × String))
    (hsch : ∀ p ∈ schema, ∃ k, p.1 = some k)
    (hfg : ∀ x ∈ recs, ∀ kk, pyGet (f x) (some kk) = pyGet (g x) (some kk)) :
    computeStatistics (recs.map f) schema = computeStatistics (recs.map g) schema := by
  induction schema with
  | nil => rfl
  | cons p rest ih =>
    obtain ⟨col, ty⟩ := p
    obtain ⟨k, hk⟩ := hsch (col, ty) (List.mem_cons_self _ rest)
    simp only [computeStatistics]
    simp only [] at hk
    subst hk
    rw [parsedValuesE_map_congr f g recs k ty hfg,
      ih (fun p2 hp2 => hsch p2 (List.mem_cons_of_mem _ hp2))]

theorem dqCols_map_congr (recs : List X) (total : ℕ) (schema : List (PyKey × String))
    (hsch : ∀ p ∈ schema, ∃ k, p.1 = some k)
    (hfg : ∀ x ∈ recs, ∀ kk, pyGet (f x) (some kk) = pyGet (g x) (some kk)) :
    dqCols (recs.map f) total schema = dqCols (recs.map g) total schema := by
  induction schema with
  | nil => rfl
  | cons p rest ih =>
    obtain ⟨col, ty⟩ := p
    obtain ⟨k, hk⟩ := hsch (col, ty) (List.mem_cons_self _ rest)
    simp only [dqCols]
    simp only [] at hk
    subst hk
    rw [missingCountE_map_congr f g recs k hfg,
      invalidCountE_map_congr f g recs k ty hfg,
      ih (fun p2 hp2 => hsch p2 (List.mem_cons_of_mem _ hp2))]

theorem detectQuality_map_congr (recs : List X) (schema : List (PyKey × String))
    (hsch : ∀ p ∈ schema, ∃ k, p.1 = some k)
    (hfg : ∀ x ∈ recs, ∀ kk, pyGet (f x) (some kk) = pyGet (g x) (some kk)) :
    detectQuality (recs.map f) schema = detectQuality (recs.map g) schema := by
  unfold detectQuality
  rw [dqCols_map_congr f g recs (recs.map f).length schema hsch hfg]
  simp only [List.length_map]

end Congruence

theorem inferSchema_keys (rows : List PyRow) (cols : List PyKey) :
    ∀ sch, inferSchema rows cols = Except.ok sch → sch.map Prod.fst = cols := by
  induction cols with
  | nil =>
    intro sch h
    simp only [inferSchema, Except.ok.injEq] at h
    subst h
    rfl
  | cons c cs ih =>
    intro sch h
    simp only [inferSchema] at h
    split at h
    · cases h
    · split at h
      · cases h
      · rename_i t ht rest hrest
        simp only [Except.ok.injEq] at h
        subst h
        simp only [List.map_cons, ih rest hrest]

/-- C1 (amended): extra trailing fields beyond the header width are ignored
— processing the input equals processing the input with every data record
truncated to the header width — provided no data record is shorter than the
header and the first data record has exactly the header's width (the
`DictReader` restkey is then never consulted). Missing trailing fields are
NOT tolerated: they are padded with `None` and make `process` fail with an
`AttributeError`, as the counterexample shows. -/
theorem c1_extras_ignored (records : List (List String)) (hdr : List String)
    (n u t : String)
    (hh : records.head? = some hdr)
    (h1 : ∀ r ∈ (records.drop 1).filter (fun x => !x.isEmpty), hdr.length ≤ r.length)
    (h2 : ∀ r0, ((records.drop 1).filter (fun x => !x.isEmpty)).head? = some r0 →
      r0.length = hdr.length) :
    process (truncRecords records) n u t = process records n u t := by
  cases records with
  | nil => cases hh
  | cons hdr2 tl =>
    have hhd : hdr2 = hdr := Option.some.inj hh
    subst hhd
    have h1t : ∀ r ∈ tl.filter (fun x => !x.isEmpty), hdr2.length ≤ r.length := h1
    have h2t : ∀ r0, (tl.filter (fun x => !x.isEmpty)).head? = some r0 →
        r0.length = hdr2.length := h2
    cases hdat : tl.filter (fun x => !x.isEmpty) with
    | nil =>
      have hrowsF : dictReadRows (hdr2 :: tl) = [] := by
        simp only [dictReadRows, hdat, List.map_nil]
      have hempty : ∀ r ∈ tl, r.isEmpty = true := by
        intro r hr
        by_contra hne
        have : r ∈ tl.filter (fun x => !x.isEmpty) :=
          List.mem_filter.mpr ⟨hr, by simp [hne]⟩
        rw [hdat] at this
        cases this
      have hrowsT : dictReadRows (truncRecords (hdr2 :: tl)) = [] := by
        simp only [truncRecords, dictReadRows, List.map_eq_nil]
        rw [List.filter_eq_nil]
        intro r hr
        obtain ⟨r2, hr2, hre⟩ := List.mem_map.mp hr
        have := hempty r2 hr2
        have hr2e : r2 = [] := by simpa [List.isEmpty_iff] using this
        subst hr2e
        simp [← hre]
      simp only [process, hrowsF, hrowsT]
    | cons r0 drest =>
      have hr0len : r0.length = hdr2.length := h2t r0 (by rw [hdat]; rfl)
      have hr0mem : r0 ∈ tl.filter (fun x => !x.isEmpty) := by
        rw [hdat]
        exact List.mem_cons_self r0 drest
      have hr0ne : ¬ r0.isEmpty = true := by
        have := (List.mem_filter.mp hr0mem).2
        simpa using this
      have hn0 : 0 < hdr2.length := by
        rcases Nat.eq_zero_or_pos hdr2.length with h0 | h0
        · exfalso
          apply hr0ne
          have : r0.length = 0 := by rw [hr0len, h0]
          simp [List.length_eq_zero.mp this]
        · exact h0
      have hcomm : (tl.map (fun r => r.take hdr2.length)).filter (fun x => !x.isEmpty)
          = (tl.filter (fun x => !x.isEmpty)).map (fun r => r.take hdr2.length) := by
        rw [List.filter_map (fun r => r.take hdr2.length) tl]
        congr 1
        apply List.filter_congr
        intro r hr
        cases r with
        | nil => simp [Function.comp]
        | cons c r2 =>
          obtain ⟨m, hm⟩ := Nat.exists_eq_succ_of_ne_zero (Nat.pos_iff_ne_zero.mp hn0)
          simp [Function.comp, hm]
      have hrowsF : dictReadRows (hdr2 :: tl)
          = (r0 :: drest).map (dictRow hdr2) := by
        simp only [dictReadRows, hdat]
      have hrowsT : dictReadRows (truncRecords (hdr2 :: tl))
          = (r0 :: drest).map (fun r => dictRow hdr2 (r.take hdr2.length)) := by
        simp only [truncRecords, dictReadRows, hcomm, hdat, List.map_map]
        rfl
      have hcells : ∀ r ∈ r0 :: drest, ∀ kk,
          pyGet (dictRow hdr2 (r.take hdr2.length)) (some kk)
            = pyGet (dictRow hdr2 r) (some kk) := by
        intro r hr kk
        exact dictRow_take_get hdr2 r (h1t r (hdat ▸ hr)) kk
      have hr0take : r0.take hdr2.length = r0 := by
        rw [← hr0len]
        exact List.take_length r0
      have hkeys : pyKeys (dictRow hdr2 (r0.take hdr2.length))
          = pyKeys (dictRow hdr2 r0) := by
        rw [hr0take]
      have hcols : ∀ c ∈ pyKeys (dictRow hdr2 r0), ∃ k, c = some k := by
        intro c hc
        have hmem := pyKeys_subset _ c hc
        rw [dictRow_eq_zip hdr2 r0 hr0len] at hmem
        simp only [List.map_map, List.mem_map] at hmem
        obtain ⟨p, hp, hpe⟩ := hmem
        exact ⟨p.1, hpe.symm⟩
      have hsch_eq : inferSchema
            ((r0 :: drest).map (fun r => dictRow hdr2 (r.take hdr2.length)))
            (pyKeys (dictRow hdr2 r0))
          = inferSchema ((r0 :: drest).map (dictRow hdr2))
            (pyKeys (dictRow hdr2 r0)) :=
        inferSchema_map_congr _ _ (r0 :: drest) _ hcols hcells
      simp only [process, hrowsF, hrowsT, List.map_cons, hr0take] at hsch_eq ⊢
      rw [hsch_eq]
      cases hsc : inferSchema (dictRow hdr2 r0 :: drest.map (dictRow hdr2))
          (pyKeys (dictRow hdr2 r0)) with
      | error e => rfl
      | ok sch =>
        dsimp only
        have hschkeys : ∀ p ∈ sch, ∃ k, p.1 = some k := by
          intro p hp
          have hk := inferSchema_keys _ _ sch hsc
          exact hcols p.1 (hk ▸ List.mem_map_of_mem Prod.fst hp)
        have hstats_eq : computeStatistics
              ((r0 :: drest).map (fun r => dictRow hdr2 (r.take hdr2.length))) sch
            = computeStatistics ((r0 :: drest).map (dictRow hdr2)) sch :=
          computeStatistics_map_congr _ _ (r0 :: drest) sch hschkeys hcells
        have hq_eq : detectQuality
              ((r0 :: drest).map (fun r => dictRow hdr2 (r.take hdr2.length))) sch
            = detectQuality ((r0 :: drest).map (dictRow hdr2)) sch :=
          detectQuality_map_congr _ _ (r0 :: drest) sch hschkeys hcells
        simp only [List.map_cons, hr0take] at hstats_eq hq_eq
        rw [hstats_eq, hq_eq]
        cases computeStatistics (dictRow hdr2 r0 :: drest.map (dictRow hdr2)) sch with
        | error e => rfl
        | ok stats =>
          dsimp only
          cases detectQuality (dictRow hdr2 r0 :: drest.map (dictRow hdr2)) sch with
          | error e => rfl
          | ok q =>
            dsimp only
            simp

/-- C1 witness: a concrete input whose second data row has one extra field
processes identically to its truncation to the header width. -/
theorem c1_extras_ignored_witness :
    process (truncRecords [["a", "b"], ["1", "2"], ["3", "4", "5"]]) "f.csv" "u" "t"
      = process [["a", "b"], ["1", "2"], ["3", "4", "5"]] "f.csv" "u" "t" :=
  c1_extras_ignored [["a", "b"], ["1", "2"], ["3", "4", "5"]] ["a", "b"] "f.csv" "u" "t"
    rfl
    (by decide)
    (by intro r0 h0; simp at h0; subst h0; rfl)
